import Mathlib

/-!
Shallow embedding of `visits_per_week.py`: a batch converter turning an
access-log extract into a weekly attendance report (ISO-week bucketing of
timestamps, per-day de-duplication of presence, per-user/per-week counting,
and deterministic report assembly).

Python dictionaries are modelled as association lists preserving insertion
order (a new key is appended at the end, an existing key is updated in
place), Python sets of users as `Finset User`, and Python integers as `Int`
(counts as `Nat`).  The standard library's `datetime.isocalendar` is
modelled after CPython's pure-Python `datetime` implementation
(`_isoweek1monday` and the week computation in `date.isocalendar`).
-/

/-- Class `User` of the source: a name and a group number.  Equality,
hashing and ordering are all by the identifier pair `(name, group)`,
which is exactly the whole state, so the structure itself is the identity. -/
structure User where
  name : String
  group : Int
deriving DecidableEq

/-- Identifier of a user, the pair `(name, group)` (property `User.identifier`). -/
def User.identifier (u : User) : String × Int := (u.name, u.group)

/-- Ordering of users: Python compares the identifier tuples
lexicographically (`User.__lt__`). -/
def userLe (u v : User) : Prop :=
  toLex u.identifier ≤ toLex v.identifier

instance : DecidableRel userLe := fun u v =>
  inferInstanceAs (Decidable (toLex u.identifier ≤ toLex v.identifier))

instance : IsTrans User userLe := ⟨fun _ _ _ h₁ h₂ => le_trans h₁ h₂⟩

instance : IsTotal User userLe := ⟨fun _ _ => le_total _ _⟩

instance : IsAntisymm User userLe := ⟨by
  intro a b h₁ h₂
  have h := le_antisymm h₁ h₂
  rw [toLex_inj] at h
  cases a; cases b
  simp only [User.identifier, Prod.mk.injEq] at h
  simp [h.1, h.2]⟩

/-- A calendar date: the `datetime` keys of `daily_presences` always have
time-of-day zero, so a date with year, month and day is the faithful key type. -/
structure Date where
  year : Nat
  month : Nat
  day : Nat
deriving DecidableEq

/-- Chronological key of a date; for the field ranges produced by the
program this lexicographic order coincides with Python's `datetime`
comparison on day-truncated values. -/
def Date.key (d : Date) : Lex (Nat × Lex (Nat × Nat)) :=
  toLex (d.year, toLex (d.month, d.day))

theorem Date.key_injective : Function.Injective Date.key := by
  intro a b h
  cases a; cases b
  simp only [Date.key, toLex_inj, Prod.mk.injEq] at h
  simp [h.1, h.2.1, h.2.2]

instance : LinearOrder Date := LinearOrder.lift' Date.key Date.key_injective

/-- A full timestamp as read from the input file (Python `datetime`). -/
structure DateTime where
  year : Nat
  month : Nat
  day : Nat
  hour : Nat
  minute : Nat
  second : Nat
deriving DecidableEq

/-- Day truncation: `datetime(year=date.year, month=date.month, day=date.day)`. -/
def DateTime.toDate (t : DateTime) : Date := ⟨t.year, t.month, t.day⟩

section Dict

variable {κ ν : Type} [DecidableEq κ]

/-- Python dict lookup `l[k]` / `l.get(k)` on the association-list model. -/
def dictGet? : List (κ × ν) → κ → Option ν
  | [], _ => none
  | (k', v) :: t, k => if k' = k then some v else dictGet? t k

/-- Python `l.get(k, d)`: lookup with a default. -/
def dictGetD (l : List (κ × ν)) (k : κ) (d : ν) : ν :=
  (dictGet? l k).getD d

/-- Python dict assignment `l[k] = v`: update in place if the key exists,
append at the end otherwise (dicts preserve insertion order). -/
def dictSet : List (κ × ν) → κ → ν → List (κ × ν)
  | [], k, v => [(k, v)]
  | (k', v') :: t, k, v => if k' = k then (k, v) :: t else (k', v') :: dictSet t k v

/-- Python `list(l.keys())`. -/
def dictKeys (l : List (κ × ν)) : List κ := l.map Prod.fst

end Dict

/-! ### Calendar arithmetic, following CPython's pure-Python `datetime` module -/

/-- Gregorian leap year test (`datetime._is_leap`). -/
def isLeapYear (y : Int) : Bool :=
  y % 4 == 0 && (y % 100 != 0 || y % 400 == 0)

/-- Number of days in a month (`datetime._days_in_month`); months outside
1..12 never occur in parsed dates and get a junk value 0. -/
def daysInMonth (y : Int) (m : Nat) : Nat :=
  match m with
  | 1 => 31 | 2 => if isLeapYear y then 29 else 28 | 3 => 31
  | 4 => 30 | 5 => 31 | 6 => 30 | 7 => 31 | 8 => 31
  | 9 => 30 | 10 => 31 | 11 => 30 | 12 => 31
  | _ => 0

/-- Days in the year strictly before month `m` (`datetime._days_before_month`). -/
def daysBeforeMonth (y : Int) (m : Nat) : Nat :=
  (match m with
   | 1 => 0 | 2 => 31 | 3 => 59 | 4 => 90 | 5 => 120 | 6 => 151
   | 7 => 181 | 8 => 212 | 9 => 243 | 10 => 273 | 11 => 304 | 12 => 334
   | _ => 0) +
  (if 2 < m ∧ isLeapYear y then 1 else 0)

/-- Days before January 1st of year `y` in the proleptic Gregorian calendar
(`datetime._days_before_year`); Python `//` is floor division, `Int.fdiv`. -/
def daysBeforeYear (y : Int) : Int :=
  (y - 1) * 365 + (y - 1).fdiv 4 - (y - 1).fdiv 100 + (y - 1).fdiv 400

/-- Proleptic Gregorian ordinal of a date, with 0001-01-01 as day 1
(`date.toordinal`). -/
def Date.toordinal (d : Date) : Int :=
  daysBeforeYear d.year + daysBeforeMonth d.year d.month + d.day

/-- Ordinal of the Monday starting ISO week 1 of `year`
(CPython `datetime._isoweek1monday`): week 1 is the week containing the
year's first Thursday, weeks starting on Monday. -/
def isoweek1monday (year : Int) : Int :=
  let firstday := daysBeforeYear year + 1
  let firstweekday := (firstday + 6).fmod 7
  let week1monday := firstday - firstweekday
  if 3 < firstweekday then week1monday + 7 else week1monday

/-- First two components of `date.isocalendar()`: the ISO year and ISO week
number of a date, per CPython's `date.isocalendar`. -/
def isocalendarYW (d : Date) : Int × Int :=
  let year : Int := d.year
  let today := d.toordinal
  let week := (today - isoweek1monday year).fdiv 7
  if week < 0 then
    (year - 1, (today - isoweek1monday (year - 1)).fdiv 7 + 1)
  else if 52 ≤ week ∧ isoweek1monday (year + 1) ≤ today then
    (year + 1, 1)
  else
    (year, week + 1)

/-! ### The identity parser (`parse_name_and_group`) -/

/-- Python `str.strip` whitespace test, restricted to the ASCII whitespace
characters that can occur in the log's identity descriptors. -/
def pyIsSpace (c : Char) : Bool :=
  c == ' ' || c == '\t' || c == '\n' || c == '\x0d' || c == '\x0b' || c == '\x0c'

/-- Python `str.strip()` on a character list: drop leading and trailing
whitespace. -/
def pyStripList (l : List Char) : List Char :=
  ((l.dropWhile pyIsSpace).reverse.dropWhile pyIsSpace).reverse

/-- Python `str.strip()`. -/
def pyStrip (s : String) : String :=
  ⟨pyStripList s.data⟩

/-- Python `str.rfind(c)`: highest index of `c`, or `-1` when absent. -/
def pyRfind (l : List Char) (c : Char) : Int :=
  match l with
  | [] => -1
  | x :: xs =>
    let r := pyRfind xs c
    if 0 ≤ r then r + 1 else if x = c then 0 else -1

/-- ASCII decimal digit test. -/
def isAsciiDigit (c : Char) : Bool :=
  '0' ≤ c && c ≤ '9'

/-- Value of an ASCII digit. -/
def digitVal (c : Char) : Nat :=
  c.toNat - '0'.toNat

/-- Continuation of Python `int` digit parsing: after an initial digit,
accepts further digits with single underscores allowed between digits. -/
def pyDigitsCore : List Char → Nat → Option Nat
  | [], acc => some acc
  | '_' :: c :: t, acc =>
    if isAsciiDigit c then pyDigitsCore t (acc * 10 + digitVal c) else none
  | c :: t, acc =>
    if isAsciiDigit c then pyDigitsCore t (acc * 10 + digitVal c) else none

/-- Python `int` digit-sequence parsing: at least one digit, single
underscores allowed between digits. -/
def pyDigits : List Char → Option Nat
  | c :: t => if isAsciiDigit c then pyDigitsCore t (digitVal c) else none
  | [] => none

/-- Python `int(s)` on an already-stripped token (an optional single sign
followed by an ASCII digit sequence); `none` models the `ValueError` the
source catches. -/
def pyIntOfList (l : List Char) : Option Int :=
  match l with
  | '+' :: t => (pyDigits t).map (fun n => (n : Int))
  | '-' :: t => (pyDigits t).map (fun n => -(n : Int))
  | t => (pyDigits t).map (fun n => (n : Int))

/-- Source function `parse_name_and_group`: split an identity descriptor at
the last `#` into a trimmed name and an integer group, with `-1` as the
sentinel whenever the split or the integer parse fails. -/
def parse_name_and_group (description_2 : String) : String × Int :=
  let l := description_2.data
  let index_of_sharp := pyRfind l '#'
  if 0 < index_of_sharp ∧ index_of_sharp < (l.length : Int) - 1 then
    let idx := index_of_sharp.toNat
    let name := String.mk (pyStripList (l.take idx))
    let group :=
      match pyIntOfList (pyStripList (l.drop (idx + 1))) with
      | some g => g
      | none => -1
    (name, group)
  else
    (description_2, -1)

/-! ### Week, WeekSet and the bucketer -/

/-- Week identifier: `(year, week number)` as returned by `isocalendar()[:2]`. -/
abbrev WeekId := Int × Int

/-- Ordering of week identifiers: Python compares the tuples lexicographically. -/
def widLe (p q : WeekId) : Prop :=
  toLex p ≤ toLex q

instance : DecidableRel widLe := fun p q =>
  inferInstanceAs (Decidable (toLex p ≤ toLex q))

instance : IsTrans WeekId widLe := ⟨fun _ _ _ h₁ h₂ => le_trans h₁ h₂⟩

instance : IsTotal WeekId widLe := ⟨fun _ _ => le_total _ _⟩

instance : IsAntisymm WeekId widLe :=
  ⟨fun _ _ h₁ h₂ => toLex_inj.mp (le_antisymm h₁ h₂)⟩

/-- Class `Week` of the source: a year, a week number, and the mapping
`daily_presences` from a day-truncated date to the set of users recorded
that day. -/
structure Week where
  year : Int
  number : Int
  daily_presences : List (Date × Finset User)
deriving DecidableEq

/-- Identifier of a week (property `Week.identifier`). -/
def Week.identifier (w : Week) : WeekId := (w.year, w.number)

/-- Ordering of weeks (`Week.__lt__`): by identifier tuple. -/
def weekLe (w v : Week) : Prop :=
  widLe w.identifier v.identifier

instance : DecidableRel weekLe := fun w v =>
  inferInstanceAs (Decidable (widLe w.identifier v.identifier))

/-- Join number fields with `/`, as `'/'.join(str(val) for val in fields)`. -/
def slashJoin (l : List Nat) : String :=
  String.intercalate "/" (l.map toString)

/-- Source method `Week.__str__`: describe the bound dates of the week found
in the daily presences.  `min`/`max` over the dictionary iterate over its
keys; the defaults for an empty dictionary model a state the program never
reaches (Python would raise there). -/
def Week.str (w : Week) : String :=
  if w.daily_presences.length = 1 then
    let date := ((w.daily_presences.head?).map Prod.fst).getD ⟨0, 0, 0⟩
    "(only " ++ slashJoin [date.year, date.month, date.day] ++ ")"
  else
    let keys := dictKeys w.daily_presences
    let min_date := keys.min?.getD ⟨0, 0, 0⟩
    let max_date := keys.max?.getD ⟨0, 0, 0⟩
    let fields := [(min_date.year, max_date.year), (min_date.month, max_date.month),
                   (min_date.day, max_date.day)]
    let pieces := fields.foldl
      (fun acc p =>
        if p.1 = p.2 then (acc.1 ++ [p.1], acc.2.1, acc.2.2)
        else (acc.1, acc.2.1 ++ [p.1], acc.2.2 ++ [p.2]))
      (([], [], []) : List Nat × List Nat × List Nat)
    "(" ++ slashJoin pieces.1 ++ " from " ++ slashJoin pieces.2.1 ++
      " to " ++ slashJoin pieces.2.2 ++ ")"

/-- Class `WeekSet` of the source: the dictionary mapping a week identifier
to its `Week`. -/
structure WeekSet where
  weeks : List (WeekId × Week)
deriving DecidableEq

/-- Source method `WeekSet.add_passage`: file a user passage under the ISO
week of its date, lazily creating the week, and insert the user into the
presence set of the day-truncated date. -/
def WeekSet.add_passage (s : WeekSet) (date : DateTime) (user : User) : WeekSet :=
  let week_identifier := isocalendarYW date.toDate
  let week :=
    match dictGet? s.weeks week_identifier with
    | some w => w
    | none => { year := week_identifier.1, number := week_identifier.2, daily_presences := [] }
  let passage_date := date.toDate
  let new_presences :=
    dictSet week.daily_presences passage_date
      (insert user (dictGetD week.daily_presences passage_date ∅))
  let week' := { week with daily_presences := new_presences }
  ⟨dictSet s.weeks week_identifier week'⟩

/-- Empty week set (`WeekSet.__init__`). -/
def WeekSet.empty : WeekSet := ⟨[]⟩

/-! ### The main pipeline -/

/-- An input record: the parsed timestamp of column 1 and the raw identity
descriptor of column 7. -/
abbrev Record := DateTime × String

/-- Body of the reading loop of `main`: parse the record's identity
descriptor (Python strips the column before parsing) and add the passage. -/
def runStep (s : WeekSet) (r : Record) : WeekSet :=
  let p := parse_name_and_group (pyStrip r.2)
  s.add_passage r.1 ⟨p.1, p.2⟩

/-- The reading loop of `main`. -/
def runWeekSet (records : List Record) : WeekSet :=
  records.foldl runStep WeekSet.empty

/-- `iter(week_set)`: weeks in ascending order of identifier (`sorted` on
`Week.__lt__`; identifiers in the dictionary are distinct, so any stable
sort gives the same list). -/
def sortedWeeks (s : WeekSet) : List Week :=
  List.insertionSort weekLe (s.weeks.map Prod.snd)

/-- The nested accumulation structure `user_to_week_to_count`; `Counter`
objects are modelled by their count.  The inner dictionary is keyed by the
`Week` object, whose hash and equality are its identifier. -/
abbrev UTW := List (User × List (WeekId × Nat))

/-- One `increment` step of the aggregation loop:
`user_to_week_to_count.setdefault(user, {}).setdefault(week, Counter()).increment()`. -/
def incrementCount (utw : UTW) (u : User) (wid : WeekId) : UTW :=
  let inner := dictGetD utw u []
  dictSet utw u (dictSet inner wid (dictGetD inner wid 0 + 1))

/-- Iteration order of a Python `set` of users is unspecified; the model
fixes the `userLe` order.  All aggregation results are order-independent. -/
def usersList (s : Finset User) : List User :=
  s.sort userLe

/-- The aggregation loop of `main`: for each week (in ascending order), for
each day's presence set, for each user in it, increment the user's counter
for that week. -/
def aggregate (weeks : List Week) : UTW :=
  weeks.foldl
    (fun utw week =>
      (week.daily_presences.map Prod.snd).foldl
        (fun utw users =>
          (usersList users).foldl (fun utw user => incrementCount utw user week.identifier) utw)
        utw)
    []

/-- The header row of the report: `Name`, `Group`, then one label per week
in ascending order: `"Week {1-based index} {week label}"`. -/
def headersFor (s : WeekSet) : List String :=
  ["Name", "Group"] ++
    (sortedWeeks s).enum.map (fun p => "Week " ++ toString (p.1 + 1) ++ " " ++ Week.str p.2)

/-- Ordering of `user_to_week_to_count.items()` under Python `sorted`: the
tuples are compared by user first; user keys are distinct, so the second
component is never compared. -/
def itemLe (a b : User × List (WeekId × Nat)) : Prop :=
  userLe a.1 b.1

instance : DecidableRel itemLe := fun a b =>
  inferInstanceAs (Decidable (userLe a.1 b.1))

/-- The data rows of the report: one row per user of
`sorted(user_to_week_to_count.items())`, holding the name, the group as
text, then `week_to_count.get(week, Counter()).count` for every week in
ascending order. -/
def rowsFor (s : WeekSet) : List (List String) :=
  (List.insertionSort itemLe (aggregate (sortedWeeks s))).map
    (fun p =>
      [p.1.name, toString p.1.group] ++
        (sortedWeeks s).map (fun week => toString (dictGetD p.2 week.identifier 0)))

/-- The whole report of `main`: the header row and the data rows. -/
def report (s : WeekSet) : List String × List (List String) :=
  (headersFor s, rowsFor s)

/-- The full pipeline on a list of input records. -/
def pipeline (records : List Record) : List String × List (List String) :=
  report (runWeekSet records)

/-- Python leaves the variable of a `for` loop bound to its last value, and
unbound when the loop body never ran: the value of `line_number` after the
reading loop over `n` data lines. -/
def lastLoopIndex (n : Nat) : Option Nat :=
  (List.range n).foldl (fun _ i => some i) none

/-- The final progress report `print('# Parsing finished,', line_number + 1,
'entries.')`: `none` models the `NameError` raised when `line_number` is
unbound. -/
def finalEntriesReport (records : List Record) : Option Nat :=
  (lastLoopIndex records.length).map (· + 1)

/-! ### Derived forms and specification-side definitions -/

/-- The week object `add_passage` operates on: the stored week if the
identifier is present, a fresh week otherwise. -/
def foundWeek (s : WeekSet) (wid : WeekId) : Week :=
  match dictGet? s.weeks wid with
  | some w => w
  | none => ⟨wid.1, wid.2, []⟩

/-- The updated week written back by `add_passage`. -/
def addedWeek (s : WeekSet) (t : DateTime) (u : User) : Week :=
  Week.mk (foundWeek s (isocalendarYW t.toDate)).year
    (foundWeek s (isocalendarYW t.toDate)).number
    (dictSet (foundWeek s (isocalendarYW t.toDate)).daily_presences t.toDate
      (insert u (dictGetD (foundWeek s (isocalendarYW t.toDate)).daily_presences t.toDate ∅)))

/-- Number of day entries of a week whose presence set contains the user. -/
def countDays (w : Week) (u : User) : Nat :=
  (w.daily_presences.filter (fun p => decide (u ∈ p.2))).length

/-- The count stored in `user_to_week_to_count` for a user and a week
identifier, read with the `Counter()` default of the report loop. -/
def getCount (utw : UTW) (u : User) (wid : WeekId) : Nat :=
  dictGetD (dictGetD utw u []) wid 0

/-- A `(user, week)` pair is materialised in `user_to_week_to_count`. -/
def PresentPair (utw : UTW) (u : User) (wid : WeekId) : Prop :=
  ∃ inner, dictGet? utw u = some inner ∧ ∃ c, dictGet? inner wid = some c

/-- All users appearing in some presence set of a week. -/
def weekUsers (w : Week) : Finset User :=
  w.daily_presences.foldr (fun p acc => p.2 ∪ acc) ∅

/-- All users appearing in some presence set of some week of the set. -/
def usersFinset (s : WeekSet) : Finset User :=
  (s.weeks.map Prod.snd).foldr (fun w acc => weekUsers w ∪ acc) ∅

/-- The canonical data row of a user: name, group as text, then the number
of distinct presence days for every week in ascending order. -/
def rowFor (s : WeekSet) (u : User) : List String :=
  [u.name, toString u.group] ++ (sortedWeeks s).map (fun w => toString (countDays w u))

/-- Structural invariant of every week set reachable by `add_passage` from
the empty set: week keys are distinct and consistent with the stored weeks,
day keys are distinct, every week has at least one day entry, every day
entry has a non-empty user set, and every day lies in its week's ISO week. -/
def ReachInv (s : WeekSet) : Prop :=
  (dictKeys s.weeks).Nodup ∧
  (∀ p ∈ s.weeks, (p.2.year, p.2.number) = p.1) ∧
  (∀ p ∈ s.weeks, (dictKeys p.2.daily_presences).Nodup) ∧
  (∀ p ∈ s.weeks, p.2.daily_presences ≠ []) ∧
  (∀ p ∈ s.weeks, ∀ q ∈ p.2.daily_presences, q.2 ≠ (∅ : Finset User)) ∧
  (∀ p ∈ s.weeks, ∀ q ∈ p.2.daily_presences, isocalendarYW q.1 = p.1)

/-- Observable content of a week set: which week identifiers exist, which
day keys each holds, and the user set of every day.  The report is a
function of this data alone. -/
structure Abs where
  wids : Finset WeekId
  days : WeekId → Finset Date
  users : WeekId → Date → Finset User

/-- Abstraction of a week set to its observable content. -/
def absOf (s : WeekSet) : Abs :=
  { wids := (dictKeys s.weeks).toFinset
    days := fun wid =>
      match dictGet? s.weeks wid with
      | some w => (dictKeys w.daily_presences).toFinset
      | none => ∅
    users := fun wid d =>
      match dictGet? s.weeks wid with
      | some w => dictGetD w.daily_presences d ∅
      | none => ∅ }

/-- Action of one passage on the observable content. -/
def absStep (a : Abs) (r : Record) : Abs :=
  let t := r.1
  let p := parse_name_and_group (pyStrip r.2)
  let u : User := ⟨p.1, p.2⟩
  let wid := isocalendarYW t.toDate
  let day := t.toDate
  { wids := insert wid a.wids
    days := Function.update a.days wid (insert day (a.days wid))
    users := fun w d =>
      if w = wid ∧ d = day then insert u (a.users w d) else a.users w d }

/-- Week label formatter modelled from the spec's words alone (§4.3 of the
spec): walk the fields year, month, day of the earliest and latest observed
days; while the two days agree append the field to a common prefix, and
from the first differing field on place that field and every subsequent
field into the parallel from/to lists, even when a later field coincides
numerically.  Used to compare the specified against the implemented label. -/
def stickyWeekStr (w : Week) : String :=
  if w.daily_presences.length = 1 then
    let date := ((w.daily_presences.head?).map Prod.fst).getD ⟨0, 0, 0⟩
    "(only " ++ slashJoin [date.year, date.month, date.day] ++ ")"
  else
    let keys := dictKeys w.daily_presences
    let min_date := keys.min?.getD ⟨0, 0, 0⟩
    let max_date := keys.max?.getD ⟨0, 0, 0⟩
    let fields := [(min_date.year, max_date.year), (min_date.month, max_date.month),
                   (min_date.day, max_date.day)]
    let pieces := fields.foldl
      (fun acc p =>
        if acc.2.1 = ([] : List Nat) ∧ p.1 = p.2 then (acc.1 ++ [p.1], acc.2.1, acc.2.2)
        else (acc.1, acc.2.1 ++ [p.1], acc.2.2 ++ [p.2]))
      (([], [], []) : List Nat × List Nat × List Nat)
    "(" ++ slashJoin pieces.1 ++ " from " ++ slashJoin pieces.2.1 ++
      " to " ++ slashJoin pieces.2.2 ++ ")"

/-- C1 as stated by the spec: on at least two distinct observed days the
implemented label always agrees with the divergence-sticky walk of §4.3. -/
def ClaimC1Statement : Prop :=
  ∀ w : Week, 2 ≤ (dictKeys w.daily_presences).toFinset.card →
    Week.str w = stickyWeekStr w

/-- Counterexample week for C1: two days sharing month and day but not the
year (a state the `Week` class accepts, though `add_passage` never builds
it, since the two days lie in different ISO weeks). -/
def c1Week : Week :=
  ⟨2022, 52, [(⟨2022, 12, 30⟩, {⟨"A", 1⟩}), (⟨2023, 12, 30⟩, {⟨"A", 1⟩})]⟩

/-- Every materialised count is at least 1. -/
def AggPos (utw : UTW) : Prop :=
  ∀ u wid, PresentPair utw u wid → 1 ≤ getCount utw u wid

/-! ### Lemmas about the dictionary model -/

theorem Abs.ext_of (a b : Abs) (h₁ : a.wids = b.wids) (h₂ : ∀ wid, a.days wid = b.days wid)
    (h₃ : ∀ wid d, a.users wid d = b.users wid d) : a = b := by
  cases a; cases b
  simp only [Abs.mk.injEq]
  exact ⟨h₁, funext h₂, funext fun wid => funext (h₃ wid)⟩

section DictLemmas

variable {κ ν : Type} [DecidableEq κ]

theorem dictGet?_dictSet_self (l : List (κ × ν)) (k : κ) (v : ν) :
    dictGet? (dictSet l k v) k = some v := by
  induction l with
  | nil => simp [dictSet, dictGet?]
  | cons p t ih =>
    obtain ⟨k', v'⟩ := p
    by_cases h : k' = k
    · simp [dictSet, dictGet?, h]
    · simp [dictSet, dictGet?, h, ih]

theorem dictGet?_dictSet_ne (l : List (κ × ν)) {k k' : κ} (v : ν) (h : k' ≠ k) :
    dictGet? (dictSet l k v) k' = dictGet? l k' := by
  have hk : k ≠ k' := Ne.symm h
  induction l with
  | nil => simp [dictSet, dictGet?, hk]
  | cons p t ih =>
    obtain ⟨k₀, v₀⟩ := p
    by_cases h₀ : k₀ = k
    · subst h₀
      simp [dictSet, dictGet?, hk]
    · simp only [dictSet, if_neg h₀, dictGet?]
      by_cases h₁ : k₀ = k'
      · simp [h₁]
      · simp [h₁, ih]

theorem dictSet_eq_self_of_get? {l : List (κ × ν)} {k : κ} {v : ν}
    (h : dictGet? l k = some v) : dictSet l k v = l := by
  induction l with
  | nil => simp [dictGet?] at h
  | cons p t ih =>
    obtain ⟨k₀, v₀⟩ := p
    by_cases h₀ : k₀ = k
    · subst h₀
      have h' : v₀ = v := by simpa [dictGet?] using h
      simp [dictSet, h']
    · simp only [dictGet?, if_neg h₀] at h
      simp [dictSet, h₀, ih h]

theorem dictKeys_dictSet (l : List (κ × ν)) (k : κ) (v : ν) :
    dictKeys (dictSet l k v) =
      if k ∈ dictKeys l then dictKeys l else dictKeys l ++ [k] := by
  induction l with
  | nil => simp [dictSet, dictKeys]
  | cons p t ih =>
    obtain ⟨k₀, v₀⟩ := p
    by_cases h₀ : k₀ = k
    · subst h₀
      simp [dictSet, dictKeys]
    · simp only [dictSet, if_neg h₀]
      simp only [dictKeys, List.map_cons] at ih ⊢
      by_cases hm : k ∈ List.map Prod.fst t
      · rw [if_pos hm] at ih
        rw [ih, if_pos (List.mem_cons_of_mem _ hm)]
      · rw [if_neg hm] at ih
        have hk : k ∉ k₀ :: List.map Prod.fst t := by
          intro hmem
          rcases List.mem_cons.mp hmem with h | h
          · exact h₀ h.symm
          · exact hm h
        rw [ih, if_neg hk]
        simp

theorem mem_dictKeys_dictSet {l : List (κ × ν)} {k a : κ} {v : ν} :
    a ∈ dictKeys (dictSet l k v) ↔ a = k ∨ a ∈ dictKeys l := by
  rw [dictKeys_dictSet]
  by_cases hm : k ∈ dictKeys l
  · rw [if_pos hm]
    constructor
    · exact Or.inr
    · rintro (rfl | h)
      · exact hm
      · exact h
  · rw [if_neg hm]
    simp [or_comm]

theorem nodup_dictKeys_dictSet {l : List (κ × ν)} {k : κ} {v : ν}
    (h : (dictKeys l).Nodup) : (dictKeys (dictSet l k v)).Nodup := by
  rw [dictKeys_dictSet]
  by_cases hm : k ∈ dictKeys l
  · rwa [if_pos hm]
  · rw [if_neg hm]
    refine List.Nodup.append h (List.nodup_singleton k) ?_
    intro a ha hb
    rw [List.mem_singleton] at hb
    subst hb
    exact hm ha

theorem dictGet?_eq_none_iff {l : List (κ × ν)} {k : κ} :
    dictGet? l k = none ↔ k ∉ dictKeys l := by
  induction l with
  | nil => simp [dictGet?, dictKeys]
  | cons p t ih =>
    obtain ⟨k₀, v₀⟩ := p
    by_cases h₀ : k₀ = k
    · subst h₀
      simp [dictGet?, dictKeys]
    · have hstep : dictGet? ((k₀, v₀) :: t) k = dictGet? t k := by
        simp [dictGet?, h₀]
      rw [hstep, ih]
      have hcons : dictKeys ((k₀, v₀) :: t) = k₀ :: dictKeys t := rfl
      rw [hcons]
      constructor
      · intro hn hmem
        rcases List.mem_cons.mp hmem with h | h
        · exact h₀ h.symm
        · exact hn h
      · intro hn h
        exact hn (List.mem_cons_of_mem _ h)

theorem mem_of_dictGet?_eq_some {l : List (κ × ν)} {k : κ} {v : ν}
    (h : dictGet? l k = some v) : (k, v) ∈ l := by
  induction l with
  | nil => simp [dictGet?] at h
  | cons p t ih =>
    obtain ⟨k₀, v₀⟩ := p
    by_cases h₀ : k₀ = k
    · subst h₀
      have h' : v₀ = v := by simpa [dictGet?] using h
      subst h'
      exact List.mem_cons_self _ _
    · simp only [dictGet?, if_neg h₀] at h
      exact List.mem_cons_of_mem _ (ih h)

theorem dictGet?_of_mem_nodup {l : List (κ × ν)} {k : κ} {v : ν}
    (hnd : (dictKeys l).Nodup) (hm : (k, v) ∈ l) : dictGet? l k = some v := by
  induction l with
  | nil => simp at hm
  | cons p t ih =>
    obtain ⟨k₀, v₀⟩ := p
    simp only [dictKeys, List.map_cons, List.nodup_cons] at hnd
    rcases List.mem_cons.mp hm with h | h
    · cases h
      simp [dictGet?]
    · have hk : k₀ ≠ k := by
        rintro rfl
        exact hnd.1 (List.mem_map.mpr ⟨(k₀, v), h, rfl⟩)
      simp [dictGet?, hk, ih hnd.2 h]

theorem mem_dictSet {l : List (κ × ν)} {k : κ} {v : ν} {p : κ × ν}
    (hp : p ∈ dictSet l k v) : p = (k, v) ∨ p ∈ l := by
  induction l with
  | nil =>
    simp only [dictSet, List.mem_singleton] at hp
    exact Or.inl hp
  | cons q t ih =>
    obtain ⟨k₀, v₀⟩ := q
    by_cases h₀ : k₀ = k
    · subst h₀
      simp only [dictSet, if_pos rfl] at hp
      rcases List.mem_cons.mp hp with h | h
      · exact Or.inl h
      · exact Or.inr (List.mem_cons_of_mem _ h)
    · simp only [dictSet, if_neg h₀] at hp
      rcases List.mem_cons.mp hp with h | h
      · exact Or.inr (h ▸ List.mem_cons_self _ _)
      · rcases ih h with h' | h'
        · exact Or.inl h'
        · exact Or.inr (List.mem_cons_of_mem _ h')

end DictLemmas

/-! ### Structure of `add_passage` -/

theorem add_passage_eq (s : WeekSet) (t : DateTime) (u : User) :
    s.add_passage t u = ⟨dictSet s.weeks (isocalendarYW t.toDate) (addedWeek s t u)⟩ := rfl

theorem add_passage_day_user_only (s : WeekSet) {t₁ t₂ : DateTime} (u : User)
    (h : t₁.toDate = t₂.toDate) : s.add_passage t₁ u = s.add_passage t₂ u := by
  rw [add_passage_eq, add_passage_eq]
  unfold addedWeek
  rw [h]

theorem addedWeek_daily (s : WeekSet) (t : DateTime) (u : User) :
    (addedWeek s t u).daily_presences =
      dictSet (foundWeek s (isocalendarYW t.toDate)).daily_presences t.toDate
        (insert u
          (dictGetD (foundWeek s (isocalendarYW t.toDate)).daily_presences t.toDate ∅)) := rfl

theorem foundWeek_add_passage_self (s : WeekSet) (t : DateTime) (u : User) :
    foundWeek (s.add_passage t u) (isocalendarYW t.toDate) = addedWeek s t u := by
  rw [add_passage_eq]
  unfold foundWeek
  rw [dictGet?_dictSet_self]

theorem add_passage_idem (s : WeekSet) (t : DateTime) (u : User) :
    (s.add_passage t u).add_passage t u = s.add_passage t u := by
  have hfound := foundWeek_add_passage_self s t u
  have hget :
      dictGet? (addedWeek s t u).daily_presences t.toDate =
        some (insert u
          (dictGetD (foundWeek s (isocalendarYW t.toDate)).daily_presences t.toDate ∅)) := by
    rw [addedWeek_daily]
    exact dictGet?_dictSet_self _ _ _
  have hAdded : addedWeek (s.add_passage t u) t u = addedWeek s t u := by
    unfold addedWeek
    rw [hfound]
    have hGetD :
        dictGetD (addedWeek s t u).daily_presences t.toDate ∅ =
          insert u
            (dictGetD (foundWeek s (isocalendarYW t.toDate)).daily_presences t.toDate ∅) := by
      rw [dictGetD, hget]
      rfl
    rw [hGetD, Finset.insert_idem]
    have hSetColl :
        dictSet (addedWeek s t u).daily_presences t.toDate
            (insert u
              (dictGetD (foundWeek s (isocalendarYW t.toDate)).daily_presences t.toDate ∅)) =
          (addedWeek s t u).daily_presences := by
      apply dictSet_eq_self_of_get?
      exact hget
    rw [hSetColl]
    rfl
  rw [add_passage_eq (s.add_passage t u) t u, hAdded, add_passage_eq s t u]
  congr 1
  apply dictSet_eq_self_of_get?
  exact dictGet?_dictSet_self _ _ _

/-! ### The final entries report (loop-variable scoping) -/

theorem lastLoopIndex_zero : lastLoopIndex 0 = none := rfl

theorem lastLoopIndex_succ (n : Nat) : lastLoopIndex (n + 1) = some n := by
  unfold lastLoopIndex
  rw [List.range_succ, List.foldl_append]
  rfl

/-! ### Characterisation of `pyRfind` -/

theorem pyRfind_neg_or_nonneg (l : List Char) (c : Char) :
    pyRfind l c = -1 ∨ 0 ≤ pyRfind l c := by
  induction l with
  | nil => exact Or.inl rfl
  | cons x xs ih =>
    rcases ih with h | h
    · by_cases hx : x = c
      · right
        simp [pyRfind, h, hx]
      · left
        simp [pyRfind, h, hx]
    · right
      rw [pyRfind]
      simp only [if_pos h]
      omega

theorem pyRfind_eq_neg_of_not_mem {l : List Char} {c : Char} (h : c ∉ l) :
    pyRfind l c = -1 := by
  induction l with
  | nil => rfl
  | cons x xs ih =>
    have hx : x ≠ c := fun hh => h (hh ▸ List.mem_cons_self _ _)
    have hxs : c ∉ xs := fun hh => h (List.mem_cons_of_mem _ hh)
    rw [pyRfind]
    simp [ih hxs, hx]

theorem pyRfind_append {a b : List Char} {c : Char} (h : c ∉ b) :
    pyRfind (a ++ c :: b) c = a.length := by
  induction a with
  | nil =>
    rw [List.nil_append, pyRfind]
    simp [pyRfind_eq_neg_of_not_mem h]
  | cons x xs ih =>
    rw [List.cons_append, pyRfind]
    have : (0 : Int) ≤ pyRfind (xs ++ c :: b) c := by
      rw [ih]
      omega
    simp only [if_pos this, ih]
    simp

theorem pyRfind_nonneg_of_mem {l : List Char} {c : Char} (h : c ∈ l) :
    0 ≤ pyRfind l c := by
  induction l with
  | nil => simp at h
  | cons x xs ih =>
    rcases List.mem_cons.mp h with h | h
    · rcases pyRfind_neg_or_nonneg xs c with h₀ | h₀
      · rw [pyRfind]
        simp [h₀, h.symm]
      · rw [pyRfind]
        simp only [if_pos h₀]
        omega
    · have := ih h
      rw [pyRfind]
      simp only [if_pos this]
      omega

theorem pyRfind_decomp {l : List Char} {c : Char} (h : 0 ≤ pyRfind l c) :
    ∃ a b, l = a ++ c :: b ∧ c ∉ b ∧ (a.length : Int) = pyRfind l c := by
  induction l with
  | nil => simp [pyRfind] at h
  | cons x xs ih =>
    rcases pyRfind_neg_or_nonneg xs c with h₀ | h₀
    · by_cases hx : x = c
      · have hnm : c ∉ xs := fun hmem => by
          have := pyRfind_nonneg_of_mem hmem
          omega
        refine ⟨[], xs, by simp [hx], hnm, ?_⟩
        rw [pyRfind]
        simp [h₀, hx]
      · exfalso
        rw [pyRfind] at h
        simp only [h₀] at h
        simp [hx] at h
    · obtain ⟨a, b, hab, hnb, hlen⟩ := ih h₀
      refine ⟨x :: a, b, by rw [hab, List.cons_append], hnb, ?_⟩
      rw [pyRfind]
      simp only [if_pos h₀]
      simp only [List.length_cons]
      omega

/-! ### Characterisation of `parse_name_and_group` -/

theorem parse_decomp {s : String} {a b : List Char}
    (hd : s.data = a ++ '#' :: b) (ha : a ≠ []) (hb : b ≠ []) (hnb : '#' ∉ b) :
    parse_name_and_group s =
      (String.mk (pyStripList a), (pyIntOfList (pyStripList b)).getD (-1)) := by
  have hr : pyRfind s.data '#' = a.length := by
    rw [hd]
    exact pyRfind_append hnb
  have hlen : s.data.length = a.length + 1 + b.length := by
    rw [hd]
    simp
    omega
  have hcond : 0 < pyRfind s.data '#' ∧
      pyRfind s.data '#' < (s.data.length : Int) - 1 := by
    rw [hr, hlen]
    have ha' : 0 < a.length := List.length_pos.mpr ha
    have hb' : 0 < b.length := List.length_pos.mpr hb
    constructor
    · exact_mod_cast ha'
    · push_cast
      omega
  have htake : s.data.take (pyRfind s.data '#').toNat = a := by
    rw [hr, hd]
    simp only [Int.toNat_natCast]
    exact List.take_left a ('#' :: b)
  have hdrop : s.data.drop ((pyRfind s.data '#').toNat + 1) = b := by
    rw [hr, hd]
    simp only [Int.toNat_natCast]
    have : a ++ '#' :: b = (a ++ ['#']) ++ b := by
      rw [← List.singleton_append, ← List.append_assoc]
    rw [this]
    have hl : a.length + 1 = (a ++ ['#']).length := by simp
    rw [hl]
    exact List.drop_left _ _
  simp only [parse_name_and_group]
  rw [if_pos hcond, htake, hdrop]
  cases pyIntOfList (pyStripList b) <;> rfl

theorem parse_no_decomp {s : String}
    (h : ¬ ∃ a b, s.data = a ++ '#' :: b ∧ a ≠ [] ∧ b ≠ [] ∧ '#' ∉ b) :
    parse_name_and_group s = (s, -1) := by
  simp only [parse_name_and_group]
  rw [if_neg]
  rintro ⟨h₁, h₂⟩
  have h0 : (0 : Int) ≤ pyRfind s.data '#' := le_of_lt h₁
  obtain ⟨a, b, hab, hnb, hlena⟩ := pyRfind_decomp h0
  refine h ⟨a, b, hab, ?_, ?_, hnb⟩
  · intro hnil
    subst hnil
    simp at hlena
    omega
  · intro hnil
    subst hnil
    have hlen : s.data.length = a.length + 1 := by
      rw [hab]
      simp
    rw [hlen] at h₂
    push_cast at h₂
    omega

/-! ### Min/max characterisation for dates -/

theorem date_min?_eq_some {l : List Date} {a : Date} :
    l.min? = some a ↔ a ∈ l ∧ ∀ b ∈ l, a ≤ b := by
  haveI : Std.Antisymm ((· ≤ ·) : Date → Date → Prop) := by
    constructor
    intro a b h₁ h₂
    exact le_antisymm h₁ h₂
  exact List.min?_eq_some_iff (fun _ => le_refl _) (fun _ _ => min_choice _ _)
    (fun _ _ _ => le_min_iff)

theorem date_max?_eq_some {l : List Date} {a : Date} :
    l.max? = some a ↔ a ∈ l ∧ ∀ b ∈ l, b ≤ a := by
  haveI : Std.Antisymm ((· ≤ ·) : Date → Date → Prop) := by
    constructor
    intro a b h₁ h₂
    exact le_antisymm h₁ h₂
  exact List.max?_eq_some_iff (fun _ => le_refl _) (fun _ _ => max_choice _ _)
    (fun _ _ _ => max_le_iff)

/-! ### The week label on two or more days -/

theorem weekStr_of_bounds (w : Week) (mn mx : Date)
    (hlen : w.daily_presences.length ≠ 1)
    (hmin : (dictKeys w.daily_presences).min? = some mn)
    (hmax : (dictKeys w.daily_presences).max? = some mx) :
    Week.str w =
      "(" ++ slashJoin ((if mn.year = mx.year then [mn.year] else []) ++
          (if mn.month = mx.month then [mn.month] else []) ++
          (if mn.day = mx.day then [mn.day] else [])) ++
        " from " ++ slashJoin ((if mn.year = mx.year then [] else [mn.year]) ++
          (if mn.month = mx.month then [] else [mn.month]) ++
          (if mn.day = mx.day then [] else [mn.day])) ++
        " to " ++ slashJoin ((if mn.year = mx.year then [] else [mx.year]) ++
          (if mn.month = mx.month then [] else [mx.month]) ++
          (if mn.day = mx.day then [] else [mx.day])) ++ ")" := by
  simp only [Week.str, if_neg hlen, hmin, hmax, Option.getD_some]
  by_cases h₁ : mn.year = mx.year <;> by_cases h₂ : mn.month = mx.month <;>
    by_cases h₃ : mn.day = mx.day <;>
    simp [h₁, h₂, h₃]

/-- C1, counterexample: on `c1Week` the code appends the coinciding month
and day fields to the common prefix after the year has already diverged,
yielding `(12/30 from 2022 to 2023)` where the sticky walk of the spec
would give `( from 2022/12/30 to 2023/12/30)`. -/
theorem claimC1_counterexample : ¬ ClaimC1Statement := by
  intro h
  have h2 : 2 ≤ (dictKeys c1Week.daily_presences).toFinset.card := by decide
  have := h c1Week h2
  revert this
  decide

/-- C1 (amended): the label formatter walks the fields year, month, day of
the earliest and latest observed days in that order, and appends each field
on which the two days agree to the common prefix and each field on which
they differ to the parallel from/to lists, each field being compared
independently of whether an earlier field already diverged.  (For days
confined to one ISO week the two readings coincide.) -/
theorem claimC1 (w : Week) (mn mx : Date)
    (hcard : 2 ≤ (dictKeys w.daily_presences).toFinset.card)
    (hmn : mn ∈ dictKeys w.daily_presences)
    (hmx : mx ∈ dictKeys w.daily_presences)
    (hbounds : ∀ d ∈ dictKeys w.daily_presences, mn ≤ d ∧ d ≤ mx) :
    Week.str w =
      "(" ++ slashJoin ((if mn.year = mx.year then [mn.year] else []) ++
          (if mn.month = mx.month then [mn.month] else []) ++
          (if mn.day = mx.day then [mn.day] else [])) ++
        " from " ++ slashJoin ((if mn.year = mx.year then [] else [mn.year]) ++
          (if mn.month = mx.month then [] else [mn.month]) ++
          (if mn.day = mx.day then [] else [mn.day])) ++
        " to " ++ slashJoin ((if mn.year = mx.year then [] else [mx.year]) ++
          (if mn.month = mx.month then [] else [mx.month]) ++
          (if mn.day = mx.day then [] else [mx.day])) ++ ")" := by
  have hlen : w.daily_presences.length ≠ 1 := by
    have hle : (dictKeys w.daily_presences).toFinset.card ≤ (dictKeys w.daily_presences).length :=
      List.toFinset_card_le _
    have : (dictKeys w.daily_presences).length = w.daily_presences.length := by
      simp [dictKeys]
    omega
  exact weekStr_of_bounds w mn mx hlen
    (date_min?_eq_some.mpr ⟨hmn, fun b hb => (hbounds b hb).1⟩)
    (date_max?_eq_some.mpr ⟨hmx, fun b hb => (hbounds b hb).2⟩)

/-- Witness for C1 on the spec's own example week (2023-05-01 and
2023-05-03): the label is `(2023/5 from 1 to 3)`. -/
theorem claimC1_witness :
    Week.str ⟨2023, 18, [(⟨2023, 5, 1⟩, {⟨"A", 1⟩}), (⟨2023, 5, 3⟩, {⟨"B", 2⟩})]⟩ =
      "(2023/5 from 1 to 3)" :=
  (claimC1 ⟨2023, 18, [(⟨2023, 5, 1⟩, {⟨"A", 1⟩}), (⟨2023, 5, 3⟩, {⟨"B", 2⟩})]⟩
      ⟨2023, 5, 1⟩ ⟨2023, 5, 3⟩ (by decide) (by decide) (by decide) (by decide)).trans
    (by decide)

/-- C2: `parse_name_and_group` splits at the last `#` exactly when that `#`
is strictly inside the string (some character before it, some character
after it), returning the trimmed name and the parsed integer group with the
`-1` sentinel on parse failure; in every other position of the last `#`
(absent, first, or last character) it returns the original string and `-1`;
the function is total, and the spec's four examples evaluate as stated. -/
theorem claimC2 :
    (∀ (s : String) (a b : List Char),
        s.data = a ++ '#' :: b → a ≠ [] → b ≠ [] → '#' ∉ b →
        parse_name_and_group s =
          (String.mk (pyStripList a), (pyIntOfList (pyStripList b)).getD (-1))) ∧
    (∀ s : String, (¬ ∃ a b, s.data = a ++ '#' :: b ∧ a ≠ [] ∧ b ≠ [] ∧ '#' ∉ b) →
        parse_name_and_group s = (s, -1)) ∧
    parse_name_and_group "Alice #3" = ("Alice", 3) ∧
    parse_name_and_group "Bob#" = ("Bob#", -1) ∧
    parse_name_and_group "  Eve # x " = ("Eve", -1) ∧
    parse_name_and_group "NoHash" = ("NoHash", -1) :=
  ⟨fun _ _ _ hd ha hb hnb => parse_decomp hd ha hb hnb,
   fun _ h => parse_no_decomp h,
   by decide, by decide, by decide, by decide⟩

/-- Witness for C2: both universally quantified clauses applied at concrete
inputs, `"Alice #3"` for the split case and `"NoHash"` for the fallback. -/
theorem claimC2_witness :
    parse_name_and_group "Alice #3" =
      (String.mk (pyStripList ['A', 'l', 'i', 'c', 'e', ' ']),
        (pyIntOfList (pyStripList ['3'])).getD (-1)) ∧
    parse_name_and_group "NoHash" = ("NoHash", -1) := by
  constructor
  · exact claimC2.1 "Alice #3" ['A', 'l', 'i', 'c', 'e', ' '] ['3']
      (by decide) (by decide) (by decide) (by decide)
  · refine claimC2.2.1 "NoHash" ?_
    rintro ⟨a, b, hab, -, -, -⟩
    have h : '#' ∈ ("NoHash" : String).data := by
      rw [hab]
      exact List.mem_append_right _ (List.mem_cons_self _ _)
    revert h
    decide

/-- C4: adding the same passage twice in a row leaves the week set exactly
as after one call, and more generally a second call whose timestamp falls
on the same calendar day and whose user has the same (name, group) identity
changes nothing. -/
theorem claimC4 :
    (∀ (s : WeekSet) (t : DateTime) (u : User),
        (s.add_passage t u).add_passage t u = s.add_passage t u) ∧
    (∀ (s : WeekSet) (t₁ t₂ : DateTime) (u₁ u₂ : User),
        t₁.toDate = t₂.toDate → u₁.identifier = u₂.identifier →
        (s.add_passage t₁ u₁).add_passage t₂ u₂ = s.add_passage t₁ u₁) := by
  constructor
  · exact add_passage_idem
  · intro s t₁ t₂ u₁ u₂ ht hu
    have hu' : u₁ = u₂ := by
      cases u₁
      cases u₂
      simp only [User.identifier, Prod.mk.injEq] at hu
      simp [hu.1, hu.2]
    subst hu'
    rw [← add_passage_day_user_only (s.add_passage t₁ u₁) u₁ ht]
    exact add_passage_idem s t₁ u₁

/-- Witness for C4: a same-day double passage of user A collapses to one. -/
theorem claimC4_witness :
    (((WeekSet.empty.add_passage ⟨2023, 5, 1, 8, 0, 0⟩ ⟨"A", 1⟩).add_passage
        ⟨2023, 5, 1, 23, 59, 59⟩ ⟨"A", 1⟩) =
      WeekSet.empty.add_passage ⟨2023, 5, 1, 8, 0, 0⟩ ⟨"A", 1⟩) :=
  claimC4.2 WeekSet.empty ⟨2023, 5, 1, 8, 0, 0⟩ ⟨2023, 5, 1, 23, 59, 59⟩
    ⟨"A", 1⟩ ⟨"A", 1⟩ (by decide) (by decide)

/-- C9: after the reading loop the record count is reported from the loop
variable `line_number`; on a header-only input (zero data records) that
variable was never bound and the report fails (`none` models the
`NameError`), while on any non-empty input it succeeds and reports exactly
the number of records consumed. -/
theorem claimC9 :
    finalEntriesReport [] = none ∧
    ∀ records : List Record, records ≠ [] →
      finalEntriesReport records = some records.length := by
  constructor
  · rfl
  · intro records h
    obtain ⟨n, hn⟩ : ∃ n, records.length = n + 1 := by
      cases records with
      | nil => exact absurd rfl h
      | cons a t => exact ⟨t.length, rfl⟩
    unfold finalEntriesReport
    rw [hn, lastLoopIndex_succ]
    simp [hn]

/-- Witness for C9: one data record reports one entry. -/
theorem claimC9_witness :
    finalEntriesReport [(⟨2023, 5, 1, 8, 0, 0⟩, "A#1")] = some 1 :=
  claimC9.2 [(⟨2023, 5, 1, 8, 0, 0⟩, "A#1")] (by decide)

/-! ### The reachability invariant -/

theorem dictSet_ne_nil {κ ν : Type} [DecidableEq κ] (l : List (κ × ν)) (k : κ) (v : ν) :
    dictSet l k v ≠ [] := by
  cases l with
  | nil => simp [dictSet]
  | cons p t =>
    obtain ⟨k₀, v₀⟩ := p
    by_cases h : k₀ = k <;> simp [dictSet, h]

theorem reachInv_empty : ReachInv WeekSet.empty := by
  refine ⟨?_, ?_, ?_, ?_, ?_, ?_⟩ <;> simp [WeekSet.empty, dictKeys]

theorem foundWeek_mem_or_fresh (s : WeekSet) (wid : WeekId) :
    ((wid, foundWeek s wid) ∈ s.weeks) ∨ foundWeek s wid = ⟨wid.1, wid.2, []⟩ := by
  unfold foundWeek
  cases hg : dictGet? s.weeks wid with
  | none => exact Or.inr rfl
  | some w => exact Or.inl (mem_of_dictGet?_eq_some hg)

theorem reachInv_add_passage (s : WeekSet) (t : DateTime) (u : User)
    (h : ReachInv s) : ReachInv (s.add_passage t u) := by
  obtain ⟨hnd, hid, hdnd, hne, hset, hiso⟩ := h
  rw [add_passage_eq]
  have hfound := foundWeek_mem_or_fresh s (isocalendarYW t.toDate)
  have hfound_id : ((foundWeek s (isocalendarYW t.toDate)).year,
      (foundWeek s (isocalendarYW t.toDate)).number) = isocalendarYW t.toDate := by
    rcases hfound with hmem | hfresh
    · exact hid _ hmem
    · rw [hfresh]
  have hfound_dnd : (dictKeys (foundWeek s (isocalendarYW t.toDate)).daily_presences).Nodup := by
    rcases hfound with hmem | hfresh
    · exact hdnd _ hmem
    · rw [hfresh]
      simp [dictKeys]
  have hfound_set : ∀ q ∈ (foundWeek s (isocalendarYW t.toDate)).daily_presences,
      q.2 ≠ (∅ : Finset User) := by
    rcases hfound with hmem | hfresh
    · exact hset _ hmem
    · rw [hfresh]
      simp
  have hfound_iso : ∀ q ∈ (foundWeek s (isocalendarYW t.toDate)).daily_presences,
      isocalendarYW q.1 = isocalendarYW t.toDate := by
    rcases hfound with hmem | hfresh
    · exact hiso _ hmem
    · rw [hfresh]
      simp
  have haddedmem : ∀ q ∈ (addedWeek s t u).daily_presences,
      (q.2 ≠ (∅ : Finset User)) ∧ isocalendarYW q.1 = isocalendarYW t.toDate := by
    intro q hq
    rw [addedWeek] at hq
    rcases mem_dictSet hq with hq' | hq'
    · subst hq'
      exact ⟨Finset.insert_ne_empty _ _, rfl⟩
    · exact ⟨hfound_set q hq', hfound_iso q hq'⟩
  refine ⟨nodup_dictKeys_dictSet hnd, ?_, ?_, ?_, ?_, ?_⟩
  · intro p hp
    rcases mem_dictSet hp with hp' | hp'
    · subst hp'
      exact hfound_id
    · exact hid p hp'
  · intro p hp
    rcases mem_dictSet hp with hp' | hp'
    · subst hp'
      exact nodup_dictKeys_dictSet hfound_dnd
    · exact hdnd p hp'
  · intro p hp
    rcases mem_dictSet hp with hp' | hp'
    · subst hp'
      exact dictSet_ne_nil _ _ _
    · exact hne p hp'
  · intro p hp
    rcases mem_dictSet hp with hp' | hp'
    · subst hp'
      exact fun q hq => (haddedmem q hq).1
    · exact hset p hp'
  · intro p hp
    rcases mem_dictSet hp with hp' | hp'
    · subst hp'
      exact fun q hq => (haddedmem q hq).2
    · exact hiso p hp'

theorem reachInv_foldl (records : List Record) :
    ∀ s : WeekSet, ReachInv s → ReachInv (records.foldl runStep s) := by
  induction records with
  | nil => exact fun s h => h
  | cons r rest ih =>
    intro s h
    exact ih _ (reachInv_add_passage s r.1 _ h)

theorem reachInv_run (records : List Record) : ReachInv (runWeekSet records) :=
  reachInv_foldl records WeekSet.empty reachInv_empty

/-- C3: `add_passage` files every passage under the key `isocalendar()[:2]`
of the timestamp's calendar date: after the call that week holds the user
on the truncated day, from any reachable state the stored week's own
(year, number) identity equals that key, and no other key of the week
dictionary changes; in particular 2023-01-01 (a Sunday, weekday index 6
with Monday as 0) belongs to ISO week 52 of 2022, not week 1 of 2023. -/
theorem claimC3 :
    (∀ (s : WeekSet) (t : DateTime) (u : User),
        dictGet? (s.add_passage t u).weeks (isocalendarYW t.toDate) =
          some (addedWeek s t u) ∧
        u ∈ dictGetD (addedWeek s t u).daily_presences t.toDate ∅ ∧
        (ReachInv s → (addedWeek s t u).identifier = isocalendarYW t.toDate) ∧
        (∀ wid', wid' ≠ isocalendarYW t.toDate →
          dictGet? (s.add_passage t u).weeks wid' = dictGet? s.weeks wid')) ∧
    isocalendarYW ⟨2023, 1, 1⟩ = (2022, 52) ∧
    (Date.toordinal ⟨2023, 1, 1⟩ + 6).fmod 7 = 6 := by
  refine ⟨fun s t u => ⟨?_, ?_, ?_, ?_⟩, by decide, by decide⟩
  · rw [add_passage_eq]
    exact dictGet?_dictSet_self _ _ _
  · rw [addedWeek, dictGetD, dictGet?_dictSet_self]
    exact Finset.mem_insert_self _ _
  · intro h
    rcases foundWeek_mem_or_fresh s (isocalendarYW t.toDate) with hmem | hfresh
    · exact h.2.1 _ hmem
    · rw [Week.identifier, addedWeek, hfresh]
  · intro wid' hne
    rw [add_passage_eq]
    exact dictGet?_dictSet_ne _ _ hne

/-- Witness for C3: one passage timestamped 2023-01-01 (any time of day)
lands in the week keyed (2022, 52), and that week's identity is (2022, 52). -/
theorem claimC3_witness :
    dictGet? (WeekSet.empty.add_passage ⟨2023, 1, 1, 10, 30, 0⟩ ⟨"A", 1⟩).weeks (2022, 52) =
      some (addedWeek WeekSet.empty ⟨2023, 1, 1, 10, 30, 0⟩ ⟨"A", 1⟩) ∧
    (addedWeek WeekSet.empty ⟨2023, 1, 1, 10, 30, 0⟩ ⟨"A", 1⟩).identifier = (2022, 52) := by
  have h := claimC3.1 WeekSet.empty ⟨2023, 1, 1, 10, 30, 0⟩ ⟨"A", 1⟩
  have hw : isocalendarYW (DateTime.toDate ⟨2023, 1, 1, 10, 30, 0⟩) = (2022, 52) := by decide
  exact ⟨hw ▸ h.1, (h.2.2.1 reachInv_empty).trans hw⟩

/-- C8: starting from the empty week set, every day key stored inside any
week of any reachable state has an ISO (year, week) pair equal to that
week's own (year, number) identity. -/
theorem claimC8 (records : List Record) :
    ∀ p ∈ (runWeekSet records).weeks, ∀ q ∈ p.2.daily_presences,
      isocalendarYW q.1 = p.2.identifier := by
  have h := reachInv_run records
  intro p hp q hq
  rw [Week.identifier, h.2.1 p hp]
  exact h.2.2.2.2.2 p hp q hq

/-- Witness for C8: the single stored day 2023-05-01 of the one-record run
has ISO pair (2023, 18), the identity of its week. -/
theorem claimC8_witness :
    isocalendarYW (⟨2023, 5, 1⟩ : Date) =
      (Week.mk 2023 18 [(⟨2023, 5, 1⟩, {⟨"A", 1⟩})]).identifier :=
  claimC8 [(⟨2023, 5, 1, 8, 0, 0⟩, "A#1")]
    ((2023, 18), Week.mk 2023 18 [(⟨2023, 5, 1⟩, {⟨"A", 1⟩})]) (by decide)
    (⟨2023, 5, 1⟩, {⟨"A", 1⟩}) (by decide)

/-- C10: every week of a reachable week set holds at least one day entry
(weeks are only created together with the day entry of the passage that
created them), so the `min`/`max` over observed days in the label formatter
are defined for every stored week. -/
theorem claimC10 (records : List Record) :
    ∀ p ∈ (runWeekSet records).weeks,
      p.2.daily_presences ≠ [] ∧
      (dictKeys p.2.daily_presences).min?.isSome ∧
      (dictKeys p.2.daily_presences).max?.isSome := by
  have h := reachInv_run records
  intro p hp
  have hne := h.2.2.2.1 p hp
  refine ⟨hne, ?_, ?_⟩
  · cases hd : p.2.daily_presences with
    | nil => exact absurd hd hne
    | cons q rest =>
      exact List.isSome_min?_of_mem (show q.1 ∈ dictKeys (q :: rest) by simp [dictKeys])
  · cases hd : p.2.daily_presences with
    | nil => exact absurd hd hne
    | cons q rest =>
      exact List.isSome_max?_of_mem (show q.1 ∈ dictKeys (q :: rest) by simp [dictKeys])

/-- Witness for C10 on the one-record run. -/
theorem claimC10_witness :
    (Week.mk 2023 18 [(⟨2023, 5, 1⟩, {⟨"A", 1⟩})]).daily_presences ≠ [] :=
  (claimC10 [(⟨2023, 5, 1, 8, 0, 0⟩, "A#1")]
    ((2023, 18), Week.mk 2023 18 [(⟨2023, 5, 1⟩, {⟨"A", 1⟩})]) (by decide)).1

/-! ### The aggregation loop: one increment -/

theorem dictGetD_dictSet_self {κ ν : Type} [DecidableEq κ]
    (l : List (κ × ν)) (k : κ) (v d : ν) : dictGetD (dictSet l k v) k d = v := by
  rw [dictGetD, dictGet?_dictSet_self]
  rfl

theorem dictGetD_dictSet_ne {κ ν : Type} [DecidableEq κ]
    (l : List (κ × ν)) {k k' : κ} (v d : ν) (h : k' ≠ k) :
    dictGetD (dictSet l k v) k' d = dictGetD l k' d := by
  rw [dictGetD, dictGet?_dictSet_ne _ _ h, dictGetD]

theorem getCount_incrementCount (utw : UTW) (u u' : User) (wid wid' : WeekId) :
    getCount (incrementCount utw u wid) u' wid' =
      getCount utw u' wid' + if u' = u ∧ wid' = wid then 1 else 0 := by
  by_cases hu : u' = u
  · subst hu
    rw [getCount, incrementCount, dictGetD_dictSet_self]
    by_cases hw : wid' = wid
    · subst hw
      rw [dictGetD_dictSet_self, getCount]
      simp
    · rw [dictGetD_dictSet_ne _ _ _ hw, getCount]
      simp [hw]
  · rw [getCount, incrementCount, dictGetD_dictSet_ne _ _ _ hu, getCount]
    simp [hu]

theorem presentPair_incrementCount (utw : UTW) (u u' : User) (wid wid' : WeekId) :
    PresentPair (incrementCount utw u wid) u' wid' ↔
      (u' = u ∧ wid' = wid) ∨ PresentPair utw u' wid' := by
  by_cases hu : u' = u
  · subst hu
    rw [incrementCount]
    constructor
    · rintro ⟨inner₀, hinner₀, c, hc⟩
      rw [dictGet?_dictSet_self] at hinner₀
      rw [Option.some.injEq] at hinner₀
      subst hinner₀
      by_cases hw : wid' = wid
      · exact Or.inl ⟨rfl, hw⟩
      · rw [dictGet?_dictSet_ne _ _ hw] at hc
        right
        cases hg : dictGet? utw u' with
        | none =>
          rw [dictGetD, hg] at hc
          simp [dictGet?] at hc
        | some inner₁ =>
          rw [dictGetD, hg] at hc
          exact ⟨inner₁, hg, c, hc⟩
    · intro h
      refine ⟨_, dictGet?_dictSet_self _ _ _, ?_⟩
      rcases h with ⟨-, hw⟩ | ⟨inner₀, hinner₀, c, hc⟩
      · subst hw
        exact ⟨_, dictGet?_dictSet_self _ _ _⟩
      · by_cases hw : wid' = wid
        · subst hw
          exact ⟨_, dictGet?_dictSet_self _ _ _⟩
        · rw [dictGet?_dictSet_ne _ _ hw, dictGetD, hinner₀]
          exact ⟨c, hc⟩
  · rw [incrementCount, PresentPair, PresentPair]
    rw [dictGet?_dictSet_ne _ _ hu]
    simp [hu]

theorem mem_keys_incrementCount {utw : UTW} {u u' : User} {wid : WeekId} :
    u' ∈ dictKeys (incrementCount utw u wid) ↔ u' = u ∨ u' ∈ dictKeys utw := by
  rw [incrementCount]
  exact mem_dictKeys_dictSet

theorem nodup_keys_incrementCount {utw : UTW} {u : User} {wid : WeekId}
    (h : (dictKeys utw).Nodup) : (dictKeys (incrementCount utw u wid)).Nodup := by
  rw [incrementCount]
  exact nodup_dictKeys_dictSet h

theorem aggPos_incrementCount {utw : UTW} (u : User) (wid : WeekId)
    (h : AggPos utw) : AggPos (incrementCount utw u wid) := by
  intro u' wid' hp
  rw [getCount_incrementCount]
  rcases (presentPair_incrementCount utw u u' wid wid').mp hp with ⟨h₁, h₂⟩ | hp'
  · simp [h₁, h₂]
  · have := h u' wid' hp'
    omega

theorem getCount_pos_present {utw : UTW} {u : User} {wid : WeekId}
    (h : 1 ≤ getCount utw u wid) : PresentPair utw u wid := by
  cases hg : dictGet? utw u with
  | none =>
    exfalso
    simp only [getCount, dictGetD, hg] at h
    simp [dictGet?] at h
  | some inner =>
    cases hc : dictGet? inner wid with
    | none =>
      exfalso
      simp only [getCount, dictGetD, hg, Option.getD_some, hc] at h
      simp at h
    | some c => exact ⟨inner, hg, c, hc⟩

/-! ### The aggregation loop: folds over users, days and weeks -/

theorem getCount_userFold (l : List User) (wid : WeekId) :
    ∀ (utw : UTW) (u : User) (wid' : WeekId),
      getCount (l.foldl (fun utw user => incrementCount utw user wid) utw) u wid' =
        getCount utw u wid' + if wid' = wid then l.count u else 0 := by
  induction l with
  | nil =>
    intro utw u wid'
    simp
  | cons x xs ih =>
    intro utw u wid'
    rw [List.foldl_cons, ih, getCount_incrementCount]
    by_cases hw : wid' = wid <;> by_cases hux : u = x <;>
      simp [List.count_cons, hw, hux] <;> omega

theorem presentPair_userFold (l : List User) (wid : WeekId) :
    ∀ (utw : UTW) (u : User) (wid' : WeekId),
      PresentPair (l.foldl (fun utw user => incrementCount utw user wid) utw) u wid' ↔
        (u ∈ l ∧ wid' = wid) ∨ PresentPair utw u wid' := by
  induction l with
  | nil =>
    intro utw u wid'
    simp
  | cons x xs ih =>
    intro utw u wid'
    rw [List.foldl_cons, ih, presentPair_incrementCount]
    constructor
    · rintro (⟨hm, hw⟩ | ⟨hu, hw⟩ | hp)
      · exact Or.inl ⟨List.mem_cons_of_mem _ hm, hw⟩
      · exact Or.inl ⟨hu ▸ List.mem_cons_self _ _, hw⟩
      · exact Or.inr hp
    · rintro (⟨hm, hw⟩ | hp)
      · rcases List.mem_cons.mp hm with h | h
        · exact Or.inr (Or.inl ⟨h, hw⟩)
        · exact Or.inl ⟨h, hw⟩
      · exact Or.inr (Or.inr hp)

theorem mem_keys_userFold (l : List User) (wid : WeekId) :
    ∀ (utw : UTW) (u : User),
      u ∈ dictKeys (l.foldl (fun utw user => incrementCount utw user wid) utw) ↔
        u ∈ l ∨ u ∈ dictKeys utw := by
  induction l with
  | nil =>
    intro utw u
    simp
  | cons x xs ih =>
    intro utw u
    rw [List.foldl_cons, ih, mem_keys_incrementCount]
    constructor
    · rintro (hm | hu | hk)
      · exact Or.inl (List.mem_cons_of_mem _ hm)
      · exact Or.inl (hu ▸ List.mem_cons_self _ _)
      · exact Or.inr hk
    · rintro (hm | hk)
      · rcases List.mem_cons.mp hm with h | h
        · exact Or.inr (Or.inl h)
        · exact Or.inl h
      · exact Or.inr (Or.inr hk)

theorem nodup_keys_userFold (l : List User) (wid : WeekId) :
    ∀ utw : UTW, (dictKeys utw).Nodup →
      (dictKeys (l.foldl (fun utw user => incrementCount utw user wid) utw)).Nodup := by
  induction l with
  | nil => exact fun utw h => h
  | cons x xs ih =>
    intro utw h
    exact ih _ (nodup_keys_incrementCount h)

theorem aggPos_userFold (l : List User) (wid : WeekId) :
    ∀ utw : UTW, AggPos utw →
      AggPos (l.foldl (fun utw user => incrementCount utw user wid) utw) := by
  induction l with
  | nil => exact fun utw h => h
  | cons x xs ih =>
    intro utw h
    exact ih _ (aggPos_incrementCount _ _ h)

theorem count_usersList (s : Finset User) (u : User) :
    (usersList s).count u = if u ∈ s then 1 else 0 := by
  by_cases h : u ∈ s
  · rw [if_pos h]
    exact List.count_eq_one_of_mem (Finset.sort_nodup _ _) ((Finset.mem_sort _).mpr h)
  · rw [if_neg h]
    exact List.count_eq_zero_of_not_mem (fun hm => h ((Finset.mem_sort _).mp hm))

theorem getCount_setFold (sets : List (Finset User)) (wid : WeekId) :
    ∀ (utw : UTW) (u : User) (wid' : WeekId),
      getCount
          (sets.foldl
            (fun utw users =>
              (usersList users).foldl (fun utw user => incrementCount utw user wid) utw)
            utw) u wid' =
        getCount utw u wid' +
          if wid' = wid then sets.countP (fun s => decide (u ∈ s)) else 0 := by
  induction sets with
  | nil =>
    intro utw u wid'
    simp
  | cons s rest ih =>
    intro utw u wid'
    rw [List.foldl_cons, ih, getCount_userFold, count_usersList]
    by_cases hw : wid' = wid <;> by_cases hus : u ∈ s <;>
      simp [List.countP_cons, hw, hus] <;> omega

theorem presentPair_setFold (sets : List (Finset User)) (wid : WeekId) :
    ∀ (utw : UTW) (u : User) (wid' : WeekId),
      PresentPair
          (sets.foldl
            (fun utw users =>
              (usersList users).foldl (fun utw user => incrementCount utw user wid) utw)
            utw) u wid' ↔
        ((∃ s ∈ sets, u ∈ s) ∧ wid' = wid) ∨ PresentPair utw u wid' := by
  induction sets with
  | nil =>
    intro utw u wid'
    simp
  | cons s rest ih =>
    intro utw u wid'
    rw [List.foldl_cons, ih, presentPair_userFold]
    constructor
    · rintro (⟨⟨s₀, hs₀, hus₀⟩, hw⟩ | ⟨hm, hw⟩ | hp)
      · exact Or.inl ⟨⟨s₀, List.mem_cons_of_mem _ hs₀, hus₀⟩, hw⟩
      · exact Or.inl ⟨⟨s, List.mem_cons_self _ _, (Finset.mem_sort _).mp hm⟩, hw⟩
      · exact Or.inr hp
    · rintro (⟨⟨s₀, hs₀, hus₀⟩, hw⟩ | hp)
      · rcases List.mem_cons.mp hs₀ with h | h
        · exact Or.inr (Or.inl ⟨(Finset.mem_sort _).mpr (h ▸ hus₀), hw⟩)
        · exact Or.inl ⟨⟨s₀, h, hus₀⟩, hw⟩
      · exact Or.inr (Or.inr hp)

theorem mem_keys_setFold (sets : List (Finset User)) (wid : WeekId) :
    ∀ (utw : UTW) (u : User),
      u ∈ dictKeys
          (sets.foldl
            (fun utw users =>
              (usersList users).foldl (fun utw user => incrementCount utw user wid) utw)
            utw) ↔
        (∃ s ∈ sets, u ∈ s) ∨ u ∈ dictKeys utw := by
  induction sets with
  | nil =>
    intro utw u
    simp
  | cons s rest ih =>
    intro utw u
    rw [List.foldl_cons, ih, mem_keys_userFold]
    constructor
    · rintro (⟨s₀, hs₀, hus₀⟩ | hm | hk)
      · exact Or.inl ⟨s₀, List.mem_cons_of_mem _ hs₀, hus₀⟩
      · exact Or.inl ⟨s, List.mem_cons_self _ _, (Finset.mem_sort _).mp hm⟩
      · exact Or.inr hk
    · rintro (⟨s₀, hs₀, hus₀⟩ | hk)
      · rcases List.mem_cons.mp hs₀ with h | h
        · exact Or.inr (Or.inl ((Finset.mem_sort _).mpr (h ▸ hus₀)))
        · exact Or.inl ⟨s₀, h, hus₀⟩
      · exact Or.inr (Or.inr hk)

theorem nodup_keys_setFold (sets : List (Finset User)) (wid : WeekId) :
    ∀ utw : UTW, (dictKeys utw).Nodup →
      (dictKeys
        (sets.foldl
          (fun utw users =>
            (usersList users).foldl (fun utw user => incrementCount utw user wid) utw)
          utw)).Nodup := by
  induction sets with
  | nil => exact fun utw h => h
  | cons s rest ih =>
    intro utw h
    exact ih _ (nodup_keys_userFold _ _ _ h)

theorem aggPos_setFold (sets : List (Finset User)) (wid : WeekId) :
    ∀ utw : UTW, AggPos utw →
      AggPos
        (sets.foldl
          (fun utw users =>
            (usersList users).foldl (fun utw user => incrementCount utw user wid) utw)
          utw) := by
  induction sets with
  | nil => exact fun utw h => h
  | cons s rest ih =>
    intro utw h
    exact ih _ (aggPos_userFold _ _ _ h)

theorem countDays_eq_countP (w : Week) (u : User) :
    countDays w u =
      (w.daily_presences.map Prod.snd).countP (fun s => decide (u ∈ s)) := by
  rw [countDays, List.countP_map, ← List.countP_eq_length_filter]
  rfl

theorem getCount_aggregate_aux (ws : List Week) :
    ∀ (utw : UTW) (u : User) (wid' : WeekId),
      getCount
          (ws.foldl
            (fun utw week =>
              (week.daily_presences.map Prod.snd).foldl
                (fun utw users =>
                  (usersList users).foldl
                    (fun utw user => incrementCount utw user week.identifier) utw)
                utw)
            utw) u wid' =
        getCount utw u wid' +
          (ws.map (fun w => if wid' = w.identifier then countDays w u else 0)).sum := by
  induction ws with
  | nil =>
    intro utw u wid'
    simp
  | cons w rest ih =>
    intro utw u wid'
    rw [List.foldl_cons, ih, getCount_setFold, ← countDays_eq_countP]
    simp only [List.map_cons, List.sum_cons]
    omega

theorem presentPair_aggregate_aux (ws : List Week) :
    ∀ (utw : UTW) (u : User) (wid' : WeekId),
      PresentPair
          (ws.foldl
            (fun utw week =>
              (week.daily_presences.map Prod.snd).foldl
                (fun utw users =>
                  (usersList users).foldl
                    (fun utw user => incrementCount utw user week.identifier) utw)
                utw)
            utw) u wid' ↔
        (∃ w ∈ ws, wid' = w.identifier ∧ ∃ q ∈ w.daily_presences, u ∈ q.2) ∨
          PresentPair utw u wid' := by
  induction ws with
  | nil =>
    intro utw u wid'
    simp
  | cons w rest ih =>
    intro utw u wid'
    rw [List.foldl_cons, ih, presentPair_setFold]
    constructor
    · rintro (⟨w₀, hw₀, hq⟩ | ⟨⟨s, hs, hus⟩, hw⟩ | hp)
      · exact Or.inl ⟨w₀, List.mem_cons_of_mem _ hw₀, hq⟩
      · obtain ⟨q, hq, hq2⟩ := List.mem_map.mp hs
        exact Or.inl ⟨w, List.mem_cons_self _ _, hw, q, hq, hq2 ▸ hus⟩
      · exact Or.inr hp
    · rintro (⟨w₀, hw₀, hwid, q, hq, hus⟩ | hp)
      · rcases List.mem_cons.mp hw₀ with h | h
        · subst h
          exact Or.inr (Or.inl ⟨⟨q.2, List.mem_map.mpr ⟨q, hq, rfl⟩, hus⟩, hwid⟩)
        · exact Or.inl ⟨w₀, h, hwid, q, hq, hus⟩
      · exact Or.inr (Or.inr hp)

theorem mem_keys_aggregate_aux (ws : List Week) :
    ∀ (utw : UTW) (u : User),
      u ∈ dictKeys
          (ws.foldl
            (fun utw week =>
              (week.daily_presences.map Prod.snd).foldl
                (fun utw users =>
                  (usersList users).foldl
                    (fun utw user => incrementCount utw user week.identifier) utw)
                utw)
            utw) ↔
        (∃ w ∈ ws, ∃ q ∈ w.daily_presences, u ∈ q.2) ∨ u ∈ dictKeys utw := by
  induction ws with
  | nil =>
    intro utw u
    simp
  | cons w rest ih =>
    intro utw u
    rw [List.foldl_cons, ih, mem_keys_setFold]
    constructor
    · rintro (⟨w₀, hw₀, hq⟩ | ⟨s, hs, hus⟩ | hk)
      · exact Or.inl ⟨w₀, List.mem_cons_of_mem _ hw₀, hq⟩
      · obtain ⟨q, hq, hq2⟩ := List.mem_map.mp hs
        exact Or.inl ⟨w, List.mem_cons_self _ _, q, hq, hq2 ▸ hus⟩
      · exact Or.inr hk
    · rintro (⟨w₀, hw₀, q, hq, hus⟩ | hk)
      · rcases List.mem_cons.mp hw₀ with h | h
        · subst h
          exact Or.inr (Or.inl ⟨q.2, List.mem_map.mpr ⟨q, hq, rfl⟩, hus⟩)
        · exact Or.inl ⟨w₀, h, q, hq, hus⟩
      · exact Or.inr (Or.inr hk)

theorem presentPair_nil (u : User) (wid : WeekId) : ¬ PresentPair [] u wid := by
  rintro ⟨inner, hinner, -⟩
  simp [dictGet?] at hinner

theorem nodup_keys_aggregate (ws : List Week) : (dictKeys (aggregate ws)).Nodup := by
  rw [aggregate]
  generalize hstart : ([] : UTW) = utw
  have hstartnd : (dictKeys utw).Nodup := by
    rw [← hstart]
    simp [dictKeys]
  clear hstart
  induction ws generalizing utw with
  | nil => exact hstartnd
  | cons w rest ih =>
    rw [List.foldl_cons]
    exact ih _ (nodup_keys_setFold _ _ _ hstartnd)

theorem aggPos_aggregate (ws : List Week) : AggPos (aggregate ws) := by
  rw [aggregate]
  generalize hstart : ([] : UTW) = utw
  have hstartpos : AggPos utw := by
    rw [← hstart]
    exact fun u wid hp => absurd hp (presentPair_nil u wid)
  clear hstart
  induction ws generalizing utw with
  | nil => exact hstartpos
  | cons w rest ih =>
    rw [List.foldl_cons]
    exact ih _ (aggPos_setFold _ _ _ hstartpos)

theorem sum_ite_identifier (u : User) :
    ∀ ws : List Week, (ws.map Week.identifier).Nodup → ∀ {w : Week}, w ∈ ws →
      (ws.map (fun w' => if w.identifier = w'.identifier then countDays w' u else 0)).sum =
        countDays w u := by
  intro ws
  induction ws with
  | nil =>
    intro _ w hw
    simp at hw
  | cons x rest ih =>
    intro hnd w hw
    simp only [List.map_cons, List.nodup_cons] at hnd
    rcases List.mem_cons.mp hw with h | h
    · subst h
      simp only [List.map_cons, List.sum_cons, if_pos rfl]
      have hzero :
          (rest.map (fun w' => if w.identifier = w'.identifier then countDays w' u else 0)).sum
            = 0 := by
        apply List.sum_eq_zero
        intro x₀ hx₀
        obtain ⟨w', hw', rfl⟩ := List.mem_map.mp hx₀
        rw [if_neg]
        intro heq
        refine hnd.1 ?_
        rw [heq]
        exact List.mem_map.mpr ⟨w', hw', rfl⟩
      rw [hzero]
      simp
    · have hne : w.identifier ≠ x.identifier := by
        intro heq
        refine hnd.1 ?_
        rw [← heq]
        exact List.mem_map.mpr ⟨w, h, rfl⟩
      simp only [List.map_cons, List.sum_cons, if_neg hne]
      rw [Nat.zero_add]
      exact ih hnd.2 h

theorem getCount_aggregate (ws : List Week) (hnd : (ws.map Week.identifier).Nodup)
    {w : Week} (hw : w ∈ ws) (u : User) :
    getCount (aggregate ws) u w.identifier = countDays w u := by
  rw [aggregate, getCount_aggregate_aux]
  have h0 : getCount [] u w.identifier = 0 := rfl
  rw [h0, Nat.zero_add]
  exact sum_ite_identifier u ws hnd hw

theorem presentPair_aggregate (ws : List Week) (u : User) (wid : WeekId) :
    PresentPair (aggregate ws) u wid ↔
      ∃ w ∈ ws, wid = w.identifier ∧ ∃ q ∈ w.daily_presences, u ∈ q.2 := by
  rw [aggregate, presentPair_aggregate_aux]
  constructor
  · rintro (h | hp)
    · exact h
    · exact absurd hp (presentPair_nil u wid)
  · exact Or.inl

theorem mem_keys_aggregate (ws : List Week) (u : User) :
    u ∈ dictKeys (aggregate ws) ↔ ∃ w ∈ ws, ∃ q ∈ w.daily_presences, u ∈ q.2 := by
  rw [aggregate, mem_keys_aggregate_aux]
  constructor
  · rintro (h | hk)
    · exact h
    · simp [dictKeys] at hk
  · exact Or.inl

/-! ### Sorted weeks -/

theorem sortedWeeks_perm (s : WeekSet) : (sortedWeeks s).Perm (s.weeks.map Prod.snd) :=
  List.perm_insertionSort weekLe (s.weeks.map Prod.snd)

theorem mem_sortedWeeks {s : WeekSet} {w : Week} :
    w ∈ sortedWeeks s ↔ ∃ p ∈ s.weeks, p.2 = w := by
  rw [(sortedWeeks_perm s).mem_iff]
  exact List.mem_map

theorem map_identifier_values {s : WeekSet} (hInv : ReachInv s) :
    (s.weeks.map Prod.snd).map Week.identifier = dictKeys s.weeks := by
  rw [List.map_map, dictKeys]
  apply List.map_congr_left
  intro p hp
  exact hInv.2.1 p hp

theorem sortedWeeks_id_nodup {s : WeekSet} (hInv : ReachInv s) :
    ((sortedWeeks s).map Week.identifier).Nodup := by
  have hperm : ((sortedWeeks s).map Week.identifier).Perm
      ((s.weeks.map Prod.snd).map Week.identifier) :=
    (sortedWeeks_perm s).map Week.identifier
  rw [map_identifier_values hInv] at hperm
  exact hperm.nodup_iff.mpr hInv.1

/-- C5: after aggregation, the count stored for a user and a week equals
the number of day entries of that week whose presence set contains the
user (day keys are distinct in every reachable state, so this is the
number of distinct days); it never exceeds the number of day entries of
the week, and a (user, week) pair is materialised in the mapping exactly
when that number is at least one — pairs with no recorded day are absent
rather than stored as 0. -/
theorem claimC5 (records : List Record) (u : User) :
    ∀ w ∈ sortedWeeks (runWeekSet records),
      getCount (aggregate (sortedWeeks (runWeekSet records))) u w.identifier = countDays w u ∧
      (dictKeys w.daily_presences).Nodup ∧
      countDays w u ≤ w.daily_presences.length ∧
      (PresentPair (aggregate (sortedWeeks (runWeekSet records))) u w.identifier ↔
        1 ≤ countDays w u) := by
  intro w hw
  have hInv := reachInv_run records
  have hcount := getCount_aggregate _ (sortedWeeks_id_nodup hInv) hw u
  refine ⟨hcount, ?_, ?_, ?_, ?_⟩
  · obtain ⟨p, hp, rfl⟩ := mem_sortedWeeks.mp hw
    exact hInv.2.2.1 p hp
  · rw [countDays]
    exact List.length_filter_le _ _
  · intro hp
    have := aggPos_aggregate (sortedWeeks (runWeekSet records)) u w.identifier hp
    omega
  · intro hpos
    exact getCount_pos_present (by omega)

/-- Witness for C5 on the one-record run: user A's count for week
(2023, 18) is 1. -/
theorem claimC5_witness :
    getCount (aggregate (sortedWeeks (runWeekSet [(⟨2023, 5, 1, 8, 0, 0⟩, "A#1")])))
        ⟨"A", 1⟩ (Week.mk 2023 18 [(⟨2023, 5, 1⟩, {⟨"A", 1⟩})]).identifier = 1 :=
  ((claimC5 [(⟨2023, 5, 1, 8, 0, 0⟩, "A#1")] ⟨"A", 1⟩
      (Week.mk 2023 18 [(⟨2023, 5, 1⟩, {⟨"A", 1⟩})]) (by decide)).1).trans (by decide)

/-! ### The data rows -/

theorem map_fst_orderedInsert (p : User × List (WeekId × Nat)) :
    ∀ l : List (User × List (WeekId × Nat)),
      (List.orderedInsert itemLe p l).map Prod.fst =
        List.orderedInsert userLe p.1 (l.map Prod.fst) := by
  intro l
  induction l with
  | nil => rfl
  | cons x rest ih =>
    show (if itemLe p x then p :: x :: rest else x :: List.orderedInsert itemLe p rest).map
        Prod.fst =
      if userLe p.1 x.1 then p.1 :: x.1 :: rest.map Prod.fst
      else x.1 :: List.orderedInsert userLe p.1 (rest.map Prod.fst)
    by_cases h : itemLe p x
    · have h' : userLe p.1 x.1 := h
      rw [if_pos h, if_pos h']
      simp
    · have h' : ¬ userLe p.1 x.1 := h
      rw [if_neg h, if_neg h']
      simp only [List.map_cons, ih]

theorem map_fst_insertionSortItems (l : List (User × List (WeekId × Nat))) :
    (List.insertionSort itemLe l).map Prod.fst =
      List.insertionSort userLe (l.map Prod.fst) := by
  induction l with
  | nil => rfl
  | cons x rest ih =>
    show (List.orderedInsert itemLe x (List.insertionSort itemLe rest)).map Prod.fst =
      List.orderedInsert userLe x.1 (List.insertionSort userLe (rest.map Prod.fst))
    rw [map_fst_orderedInsert, ih]

theorem mem_weekUsers {w : Week} {u : User} :
    u ∈ weekUsers w ↔ ∃ q ∈ w.daily_presences, u ∈ q.2 := by
  rw [weekUsers]
  induction w.daily_presences with
  | nil => simp
  | cons q rest ih =>
    rw [List.foldr_cons, Finset.mem_union, ih]
    constructor
    · rintro (h | ⟨q₀, hq₀, hu⟩)
      · exact ⟨q, List.mem_cons_self _ _, h⟩
      · exact ⟨q₀, List.mem_cons_of_mem _ hq₀, hu⟩
    · rintro ⟨q₀, hq₀, hu⟩
      rcases List.mem_cons.mp hq₀ with h | h
      · exact Or.inl (h ▸ hu)
      · exact Or.inr ⟨q₀, h, hu⟩

theorem mem_usersFinset {s : WeekSet} {u : User} :
    u ∈ usersFinset s ↔ ∃ p ∈ s.weeks, ∃ q ∈ p.2.daily_presences, u ∈ q.2 := by
  rw [usersFinset]
  have haux : ∀ ws : List Week,
      (u ∈ ws.foldr (fun w acc => weekUsers w ∪ acc) ∅ ↔ ∃ w ∈ ws, u ∈ weekUsers w) := by
    intro ws
    induction ws with
    | nil => simp
    | cons w rest ih =>
      rw [List.foldr_cons, Finset.mem_union, ih]
      constructor
      · rintro (h | ⟨w₀, hw₀, hu⟩)
        · exact ⟨w, List.mem_cons_self _ _, h⟩
        · exact ⟨w₀, List.mem_cons_of_mem _ hw₀, hu⟩
      · rintro ⟨w₀, hw₀, hu⟩
        rcases List.mem_cons.mp hw₀ with h | h
        · exact Or.inl (h ▸ hu)
        · exact Or.inr ⟨w₀, h, hu⟩
  rw [haux]
  constructor
  · rintro ⟨w, hw, hu⟩
    obtain ⟨p, hp, rfl⟩ := List.mem_map.mp hw
    exact ⟨p, hp, mem_weekUsers.mp hu⟩
  · rintro ⟨p, hp, hq⟩
    exact ⟨p.2, List.mem_map.mpr ⟨p, hp, rfl⟩, mem_weekUsers.mpr hq⟩

theorem sorted_user_keys_eq (s : WeekSet) :
    List.insertionSort userLe (dictKeys (aggregate (sortedWeeks s))) =
      Finset.sort userLe (usersFinset s) := by
  apply List.eq_of_perm_of_sorted (r := userLe)
  · have h₁ : (List.insertionSort userLe (dictKeys (aggregate (sortedWeeks s)))).Nodup :=
      (List.perm_insertionSort userLe _).nodup_iff.mpr (nodup_keys_aggregate _)
    have h₂ : (Finset.sort userLe (usersFinset s)).Nodup := Finset.sort_nodup _ _
    apply List.perm_of_nodup_nodup_toFinset_eq h₁ h₂
    apply Finset.ext
    intro u
    rw [List.mem_toFinset, List.mem_toFinset, (List.perm_insertionSort userLe _).mem_iff,
      mem_keys_aggregate, Finset.mem_sort, mem_usersFinset]
    constructor
    · rintro ⟨w, hw, hq⟩
      obtain ⟨p, hp, rfl⟩ := mem_sortedWeeks.mp hw
      exact ⟨p, hp, hq⟩
    · rintro ⟨p, hp, hq⟩
      exact ⟨p.2, mem_sortedWeeks.mpr ⟨p, hp, rfl⟩, hq⟩
  · exact List.sorted_insertionSort userLe _
  · exact Finset.sort_sorted userLe _

theorem inner_getD_eq_getCount {L : List Week} {u : User} {inner : List (WeekId × Nat)}
    (hmem : (u, inner) ∈ aggregate L) (wid : WeekId) :
    dictGetD inner wid 0 = getCount (aggregate L) u wid := by
  have h := dictGet?_of_mem_nodup (nodup_keys_aggregate L) hmem
  have h2 : dictGetD (aggregate L) u [] = inner := by
    rw [dictGetD, h]
    rfl
  rw [getCount, h2]

theorem rowsFor_canonical {s : WeekSet} (hInv : ReachInv s) :
    rowsFor s = (Finset.sort userLe (usersFinset s)).map (rowFor s) := by
  rw [rowsFor]
  have hstep1 :
      (List.insertionSort itemLe (aggregate (sortedWeeks s))).map
          (fun p =>
            [p.1.name, toString p.1.group] ++
              (sortedWeeks s).map (fun week => toString (dictGetD p.2 week.identifier 0))) =
        (List.insertionSort itemLe (aggregate (sortedWeeks s))).map
          (fun p => rowFor s p.1) := by
    apply List.map_congr_left
    intro p hp
    have hpmem : p ∈ aggregate (sortedWeeks s) :=
      (List.perm_insertionSort itemLe _).subset hp
    obtain ⟨u, inner⟩ := p
    rw [rowFor]
    simp only [List.cons_append, List.nil_append, List.cons.injEq, true_and]
    apply List.map_congr_left
    intro w hw
    rw [inner_getD_eq_getCount hpmem,
      getCount_aggregate _ (sortedWeeks_id_nodup hInv) hw]
  rw [hstep1]
  have hcomp : (fun p : User × List (WeekId × Nat) => rowFor s p.1) =
      (rowFor s ∘ Prod.fst) := rfl
  rw [hcomp, ← List.map_map, map_fst_insertionSortItems]
  have hkeys : (aggregate (sortedWeeks s)).map Prod.fst =
      dictKeys (aggregate (sortedWeeks s)) := rfl
  rw [hkeys, sorted_user_keys_eq]

/-- C6: the report holds exactly one data row per user appearing in some
presence set, the rows ordered by the sorted user identity list (plain
lexicographic name order, then numeric group order, no case folding), and
each row is the user's name, the group as text, then for every week in
ascending order the count of that user's presence days — `countDays` is 0
exactly when the (user, week) pair has no recorded data, so absent pairs
print as 0. -/
theorem claimC6 (records : List Record) :
    rowsFor (runWeekSet records) =
      (Finset.sort userLe (usersFinset (runWeekSet records))).map
        (rowFor (runWeekSet records)) ∧
    List.Sorted userLe (Finset.sort userLe (usersFinset (runWeekSet records))) ∧
    ∀ u : User,
      u ∈ Finset.sort userLe (usersFinset (runWeekSet records)) ↔
        ∃ p ∈ (runWeekSet records).weeks, ∃ q ∈ p.2.daily_presences, u ∈ q.2 := by
  refine ⟨rowsFor_canonical (reachInv_run records), Finset.sort_sorted userLe _, fun u => ?_⟩
  rw [Finset.mem_sort, mem_usersFinset]

/-! ### The observable content and its evolution -/

theorem toFinset_dictKeys_dictSet {κ ν : Type} [DecidableEq κ] (l : List (κ × ν)) (k : κ)
    (v : ν) : (dictKeys (dictSet l k v)).toFinset = insert k (dictKeys l).toFinset := by
  rw [dictKeys_dictSet]
  by_cases hm : k ∈ dictKeys l
  · rw [if_pos hm]
    symm
    rw [Finset.insert_eq_self]
    exact List.mem_toFinset.mpr hm
  · rw [if_neg hm]
    ext a
    simp [or_comm]

theorem absOf_wids (s : WeekSet) : (absOf s).wids = (dictKeys s.weeks).toFinset := rfl

theorem absOf_days (s : WeekSet) (wid : WeekId) :
    (absOf s).days wid =
      match dictGet? s.weeks wid with
      | some w => (dictKeys w.daily_presences).toFinset
      | none => ∅ := rfl

theorem absOf_users (s : WeekSet) (wid : WeekId) (d : Date) :
    (absOf s).users wid d =
      match dictGet? s.weeks wid with
      | some w => dictGetD w.daily_presences d ∅
      | none => ∅ := rfl

theorem foundWeek_days_abs (s : WeekSet) (wid : WeekId) :
    (dictKeys (foundWeek s wid).daily_presences).toFinset = (absOf s).days wid := by
  rw [absOf_days]
  cases hg : dictGet? s.weeks wid with
  | none =>
    rw [foundWeek, hg]
    rfl
  | some w =>
    rw [foundWeek, hg]

theorem foundWeek_users_abs (s : WeekSet) (wid : WeekId) (d : Date) :
    dictGetD (foundWeek s wid).daily_presences d ∅ = (absOf s).users wid d := by
  rw [absOf_users]
  cases hg : dictGet? s.weeks wid with
  | none =>
    rw [foundWeek, hg]
    rfl
  | some w =>
    rw [foundWeek, hg]

theorem absOf_add_passage (s : WeekSet) (t : DateTime) (u : User) :
    absOf (s.add_passage t u) =
      { wids := insert (isocalendarYW t.toDate) (absOf s).wids
        days := Function.update (absOf s).days (isocalendarYW t.toDate)
          (insert t.toDate ((absOf s).days (isocalendarYW t.toDate)))
        users := fun w d =>
          if w = isocalendarYW t.toDate ∧ d = t.toDate then
            insert u ((absOf s).users w d)
          else (absOf s).users w d } := by
  have hl : dictGet? (s.add_passage t u).weeks (isocalendarYW t.toDate) =
      some (addedWeek s t u) := by
    rw [add_passage_eq]
    exact dictGet?_dictSet_self _ _ _
  have hlne : ∀ wid, wid ≠ isocalendarYW t.toDate →
      dictGet? (s.add_passage t u).weeks wid = dictGet? s.weeks wid := by
    intro wid hw
    rw [add_passage_eq]
    exact dictGet?_dictSet_ne _ _ hw
  apply Abs.ext_of
  · rw [absOf_wids, add_passage_eq, toFinset_dictKeys_dictSet]
    rfl
  · intro wid
    by_cases hw : wid = isocalendarYW t.toDate
    · rw [hw]
      have h₁ : (absOf (s.add_passage t u)).days (isocalendarYW t.toDate) =
          (dictKeys (addedWeek s t u).daily_presences).toFinset := by
        rw [absOf_days, hl]
      rw [h₁, addedWeek_daily, toFinset_dictKeys_dictSet, foundWeek_days_abs]
      show _ = Function.update (absOf s).days (isocalendarYW t.toDate)
        (insert t.toDate ((absOf s).days (isocalendarYW t.toDate))) (isocalendarYW t.toDate)
      rw [Function.update_same]
    · have h₁ : (absOf (s.add_passage t u)).days wid = (absOf s).days wid := by
        rw [absOf_days, hlne wid hw, absOf_days]
      rw [h₁]
      show _ = Function.update (absOf s).days (isocalendarYW t.toDate)
        (insert t.toDate ((absOf s).days (isocalendarYW t.toDate))) wid
      rw [Function.update_noteq hw]
  · intro wid d
    have key : (absOf (s.add_passage t u)).users wid d =
        if wid = isocalendarYW t.toDate ∧ d = t.toDate then
          insert u ((absOf s).users wid d)
        else (absOf s).users wid d := by
      by_cases hw : wid = isocalendarYW t.toDate
      · have h₁ : (absOf (s.add_passage t u)).users wid d =
            dictGetD (addedWeek s t u).daily_presences d ∅ := by
          rw [hw, absOf_users, hl]
        by_cases hd : d = t.toDate
        · rw [if_pos ⟨hw, hd⟩, h₁, hd, addedWeek_daily, dictGetD_dictSet_self, hw,
            foundWeek_users_abs]
        · rw [if_neg (fun hc => hd hc.2), h₁, addedWeek_daily,
            dictGetD_dictSet_ne _ _ _ hd, hw, foundWeek_users_abs]
      · rw [if_neg (fun hc => hw hc.1), absOf_users, hlne wid hw, absOf_users]
    exact key

theorem absOf_runStep (s : WeekSet) (r : Record) :
    absOf (runStep s r) = absStep (absOf s) r := by
  show absOf (s.add_passage r.1
      ⟨(parse_name_and_group (pyStrip r.2)).1, (parse_name_and_group (pyStrip r.2)).2⟩) =
    absStep (absOf s) r
  rw [absOf_add_passage]
  rfl

theorem absStep_wids (a : Abs) (r : Record) :
    (absStep a r).wids = insert (isocalendarYW r.1.toDate) a.wids := rfl

theorem absStep_days (a : Abs) (r : Record) :
    (absStep a r).days = Function.update a.days (isocalendarYW r.1.toDate)
      (insert r.1.toDate (a.days (isocalendarYW r.1.toDate))) := rfl

theorem absStep_users (a : Abs) (r : Record) (w : WeekId) (d : Date) :
    (absStep a r).users w d =
      if w = isocalendarYW r.1.toDate ∧ d = r.1.toDate then
        insert ⟨(parse_name_and_group (pyStrip r.2)).1, (parse_name_and_group (pyStrip r.2)).2⟩
          (a.users w d)
      else a.users w d := rfl

theorem update_insert_comm {α β : Type} [DecidableEq α] [DecidableEq β]
    (f : α → Finset β) (k₁ k₂ : α) (v₁ v₂ : β) :
    Function.update (Function.update f k₁ (insert v₁ (f k₁))) k₂
        (insert v₂ (Function.update f k₁ (insert v₁ (f k₁)) k₂)) =
      Function.update (Function.update f k₂ (insert v₂ (f k₂))) k₁
        (insert v₁ (Function.update f k₂ (insert v₂ (f k₂)) k₁)) := by
  funext x
  simp only [Function.update_apply]
  by_cases hk : k₁ = k₂
  · subst hk
    by_cases hx : x = k₁ <;> simp [hx, Finset.Insert.comm]
  · by_cases hx2 : x = k₂ <;> by_cases hx1 : x = k₁
    · exact absurd (by rw [← hx1, hx2]) hk
    · simp [hx1, hx2, hk, Ne.symm hk]
    · simp [hx1, hx2, hk, Ne.symm hk]
    · simp [hx1, hx2]

theorem absStep_comm (a : Abs) (r₁ r₂ : Record) :
    absStep (absStep a r₁) r₂ = absStep (absStep a r₂) r₁ := by
  apply Abs.ext_of
  · simp only [absStep_wids]
    exact Finset.Insert.comm _ _ _
  · intro wid
    refine congrFun ?_ wid
    simp only [absStep_days]
    exact update_insert_comm a.days _ _ _ _
  · intro wid d
    simp only [absStep_users]
    by_cases h₂ : wid = isocalendarYW r₂.1.toDate ∧ d = r₂.1.toDate <;>
      by_cases h₁ : wid = isocalendarYW r₁.1.toDate ∧ d = r₁.1.toDate
    · simp only [if_pos h₁, if_pos h₂]
      exact Finset.Insert.comm _ _ _
    · simp only [if_pos h₂, if_neg h₁]
    · simp only [if_pos h₁, if_neg h₂]
    · simp only [if_neg h₁, if_neg h₂]

instance : RightCommutative absStep := ⟨absStep_comm⟩

theorem absOf_foldl (l : List Record) :
    ∀ s : WeekSet, absOf (l.foldl runStep s) = l.foldl absStep (absOf s) := by
  induction l with
  | nil => exact fun s => rfl
  | cons r rest ih =>
    intro s
    rw [List.foldl_cons, List.foldl_cons, ih, absOf_runStep]

theorem absOf_runWeekSet_perm {records₁ records₂ : List Record}
    (h : records₁.Perm records₂) :
    absOf (runWeekSet records₁) = absOf (runWeekSet records₂) := by
  rw [runWeekSet, runWeekSet, absOf_foldl, absOf_foldl]
  exact h.foldl_eq (absOf WeekSet.empty)

/-! ### The report as a function of the observable content -/

theorem map_identifier_orderedInsert (w : Week) :
    ∀ l : List Week,
      (List.orderedInsert weekLe w l).map Week.identifier =
        List.orderedInsert widLe w.identifier (l.map Week.identifier) := by
  intro l
  induction l with
  | nil => rfl
  | cons x rest ih =>
    show (if weekLe w x then w :: x :: rest else x :: List.orderedInsert weekLe w rest).map
        Week.identifier =
      if widLe w.identifier x.identifier then
        w.identifier :: x.identifier :: rest.map Week.identifier
      else x.identifier :: List.orderedInsert widLe w.identifier (rest.map Week.identifier)
    by_cases h : weekLe w x
    · have h' : widLe w.identifier x.identifier := h
      rw [if_pos h, if_pos h']
      simp
    · have h' : ¬ widLe w.identifier x.identifier := h
      rw [if_neg h, if_neg h']
      simp only [List.map_cons, ih]

theorem map_identifier_insertionSort (l : List Week) :
    (List.insertionSort weekLe l).map Week.identifier =
      List.insertionSort widLe (l.map Week.identifier) := by
  induction l with
  | nil => rfl
  | cons x rest ih =>
    show (List.orderedInsert weekLe x (List.insertionSort weekLe rest)).map Week.identifier =
      List.orderedInsert widLe x.identifier (List.insertionSort widLe (rest.map Week.identifier))
    rw [map_identifier_orderedInsert, ih]

theorem sortedWeeks_ids {s : WeekSet} (hInv : ReachInv s) :
    (sortedWeeks s).map Week.identifier = List.insertionSort widLe (dictKeys s.weeks) := by
  rw [sortedWeeks, map_identifier_insertionSort, map_identifier_values hInv]

theorem lookup_of_mem_sortedWeeks {s : WeekSet} (hInv : ReachInv s) {w : Week}
    (hw : w ∈ sortedWeeks s) : dictGet? s.weeks w.identifier = some w := by
  obtain ⟨p, hp, rfl⟩ := mem_sortedWeeks.mp hw
  have hid : (p.2.year, p.2.number) = p.1 := hInv.2.1 p hp
  show dictGet? s.weeks (p.2.year, p.2.number) = some p.2
  rw [hid]
  refine dictGet?_of_mem_nodup hInv.1 ?_
  rw [Prod.mk.eta]
  exact hp

theorem sortedWeeks_eq_map {s : WeekSet} (hInv : ReachInv s) :
    sortedWeeks s =
      (List.insertionSort widLe (dictKeys s.weeks)).map
        (fun wid => (dictGet? s.weeks wid).getD ⟨0, 0, []⟩) := by
  rw [← sortedWeeks_ids hInv, List.map_map]
  conv_lhs => rw [← List.map_id (sortedWeeks s)]
  apply List.map_congr_left
  intro w hw
  show w = (dictGet? s.weeks w.identifier).getD ⟨0, 0, []⟩
  rw [lookup_of_mem_sortedWeeks hInv hw]
  rfl

theorem dictGet?_isSome_of_mem_keys {κ ν : Type} [DecidableEq κ] {l : List (κ × ν)} {k : κ}
    (h : k ∈ dictKeys l) : ∃ v, dictGet? l k = some v := by
  cases hg : dictGet? l k with
  | none => exact absurd h (dictGet?_eq_none_iff.mp hg)
  | some v => exact ⟨v, rfl⟩

theorem date_min?_perm {l₁ l₂ : List Date} (h : l₁.Perm l₂) : l₁.min? = l₂.min? := by
  cases hm : l₁.min? with
  | none =>
    rw [List.min?_eq_none_iff] at hm
    symm
    rw [List.min?_eq_none_iff]
    rw [hm] at h
    exact h.symm.eq_nil
  | some a =>
    have ha := date_min?_eq_some.mp hm
    symm
    rw [date_min?_eq_some]
    exact ⟨h.mem_iff.mp ha.1, fun b hb => ha.2 b (h.mem_iff.mpr hb)⟩

theorem date_max?_perm {l₁ l₂ : List Date} (h : l₁.Perm l₂) : l₁.max? = l₂.max? := by
  cases hm : l₁.max? with
  | none =>
    rw [List.max?_eq_none_iff] at hm
    symm
    rw [List.max?_eq_none_iff]
    rw [hm] at h
    exact h.symm.eq_nil
  | some a =>
    have ha := date_max?_eq_some.mp hm
    symm
    rw [date_max?_eq_some]
    exact ⟨h.mem_iff.mp ha.1, fun b hb => ha.2 b (h.mem_iff.mpr hb)⟩

theorem weekStr_congr {w₁ w₂ : Week}
    (h : (dictKeys w₁.daily_presences).Perm (dictKeys w₂.daily_presences)) :
    Week.str w₁ = Week.str w₂ := by
  have hlen : w₁.daily_presences.length = w₂.daily_presences.length := by
    have hk := h.length_eq
    simpa [dictKeys] using hk
  by_cases h1 : w₁.daily_presences.length = 1
  · have h2 : w₂.daily_presences.length = 1 := by omega
    obtain ⟨q₁, hd₁⟩ := List.length_eq_one.mp h1
    obtain ⟨q₂, hd₂⟩ := List.length_eq_one.mp h2
    have hq : q₁.1 = q₂.1 := by
      rw [hd₁, hd₂] at h
      have hsing : ([q₁.1] : List Date) = [q₂.1] :=
        List.perm_singleton.mp (by simpa [dictKeys] using h)
      simpa using hsing
    simp [Week.str, hd₁, hd₂, hq]
  · have h2 : w₂.daily_presences.length ≠ 1 := by omega
    have hmin := date_min?_perm h
    have hmax := date_max?_perm h
    simp only [Week.str, if_neg h1, if_neg h2, hmin, hmax]

theorem countDaysList_eq_card (u : User) :
    ∀ l : List (Date × Finset User), (dictKeys l).Nodup →
      (l.filter (fun p => decide (u ∈ p.2))).length =
        ((dictKeys l).toFinset.filter (fun d => u ∈ dictGetD l d ∅)).card := by
  intro l
  induction l with
  | nil =>
    intro _
    simp [dictKeys]
  | cons q rest ih =>
    intro hnd
    obtain ⟨d₀, s₀⟩ := q
    have hcons : dictKeys ((d₀, s₀) :: rest) = d₀ :: dictKeys rest := rfl
    rw [hcons, List.nodup_cons] at hnd
    have hK : (dictKeys ((d₀, s₀) :: rest)).toFinset =
        insert d₀ (dictKeys rest).toFinset := by
      rw [hcons]
      simp
    rw [hK, Finset.filter_insert]
    have hgd : dictGetD ((d₀, s₀) :: rest) d₀ ∅ = s₀ := by
      simp [dictGetD, dictGet?]
    have hfilters :
        Finset.filter (fun d => u ∈ dictGetD ((d₀, s₀) :: rest) d ∅)
            (dictKeys rest).toFinset =
          Finset.filter (fun d => u ∈ dictGetD rest d ∅) (dictKeys rest).toFinset := by
      apply Finset.filter_congr
      intro d hd
      have hne : d₀ ≠ d := fun hh => hnd.1 (hh ▸ List.mem_toFinset.mp hd)
      simp [dictGetD, dictGet?, hne]
    by_cases hus : u ∈ s₀
    · rw [if_pos (by rw [hgd]; exact hus)]
      have hd₀f : d₀ ∉ Finset.filter (fun d => u ∈ dictGetD ((d₀, s₀) :: rest) d ∅)
          (dictKeys rest).toFinset :=
        fun hmem => hnd.1 (List.mem_toFinset.mp (Finset.mem_filter.mp hmem).1)
      rw [Finset.card_insert_of_not_mem hd₀f, hfilters, ← ih hnd.2]
      simp [hus]
    · rw [if_neg (by rw [hgd]; exact hus), hfilters, ← ih hnd.2]
      simp [hus]

theorem countDays_congr {w₁ w₂ : Week} (u : User)
    (h₁ : (dictKeys w₁.daily_presences).Nodup)
    (h₂ : (dictKeys w₂.daily_presences).Nodup)
    (hk : (dictKeys w₁.daily_presences).toFinset = (dictKeys w₂.daily_presences).toFinset)
    (hg : ∀ d, dictGetD w₁.daily_presences d ∅ = dictGetD w₂.daily_presences d ∅) :
    countDays w₁ u = countDays w₂ u := by
  rw [countDays, countDays, countDaysList_eq_card u _ h₁, countDaysList_eq_card u _ h₂, hk]
  congr 1
  apply Finset.filter_congr
  intro d _
  rw [hg d]

theorem mem_usersFinset_abs {s : WeekSet} (hInv : ReachInv s) (u : User) :
    u ∈ usersFinset s ↔ ∃ wid d, d ∈ (absOf s).days wid ∧ u ∈ (absOf s).users wid d := by
  rw [mem_usersFinset]
  constructor
  · rintro ⟨p, hp, q, hq, hu⟩
    refine ⟨p.1, q.1, ?_, ?_⟩
    · have hl : dictGet? s.weeks p.1 = some p.2 := by
        refine dictGet?_of_mem_nodup hInv.1 ?_
        rw [Prod.mk.eta]
        exact hp
      rw [absOf_days, hl]
      exact List.mem_toFinset.mpr (List.mem_map.mpr ⟨q, hq, rfl⟩)
    · have hl : dictGet? s.weeks p.1 = some p.2 := by
        refine dictGet?_of_mem_nodup hInv.1 ?_
        rw [Prod.mk.eta]
        exact hp
      have hgd : dictGetD p.2.daily_presences q.1 ∅ = q.2 := by
        rw [dictGetD, dictGet?_of_mem_nodup (hInv.2.2.1 p hp) (by rw [Prod.mk.eta]; exact hq)]
        rfl
      rw [absOf_users, hl]
      show u ∈ dictGetD p.2.daily_presences q.1 ∅
      rw [hgd]
      exact hu
  · rintro ⟨wid, d, hd, hu⟩
    cases hl : dictGet? s.weeks wid with
    | none =>
      rw [absOf_days, hl] at hd
      simp at hd
    | some w =>
      rw [absOf_days, hl] at hd
      rw [absOf_users, hl] at hu
      have hd' : d ∈ (dictKeys w.daily_presences).toFinset := hd
      have hu' : u ∈ dictGetD w.daily_presences d ∅ := hu
      obtain ⟨q, hq, hq1⟩ := List.mem_map.mp (List.mem_toFinset.mp hd')
      have hp : (wid, w) ∈ s.weeks := mem_of_dictGet?_eq_some hl
      have hgd : dictGetD w.daily_presences d ∅ = q.2 := by
        rw [dictGetD, ← hq1,
          dictGet?_of_mem_nodup (hInv.2.2.1 (wid, w) hp) (by rw [Prod.mk.eta]; exact hq)]
        rfl
      rw [hgd] at hu'
      exact ⟨(wid, w), hp, q, hq, hu'⟩

theorem aligned_lookup {s₁ s₂ : WeekSet} (h₁ : ReachInv s₁) (h₂ : ReachInv s₂)
    (hab : absOf s₁ = absOf s₂) {wid : WeekId} (hmem : wid ∈ dictKeys s₁.weeks) :
    ∃ w₁ w₂, dictGet? s₁.weeks wid = some w₁ ∧ dictGet? s₂.weeks wid = some w₂ ∧
      (dictKeys w₁.daily_presences).Nodup ∧ (dictKeys w₂.daily_presences).Nodup ∧
      (dictKeys w₁.daily_presences).Perm (dictKeys w₂.daily_presences) ∧
      ∀ d, dictGetD w₁.daily_presences d ∅ = dictGetD w₂.daily_presences d ∅ := by
  have hwids : (dictKeys s₁.weeks).toFinset = (dictKeys s₂.weeks).toFinset := by
    have hc : (absOf s₁).wids = (absOf s₂).wids := by rw [hab]
    rwa [absOf_wids, absOf_wids] at hc
  have hmem₂ : wid ∈ dictKeys s₂.weeks := by
    have hm := List.mem_toFinset.mpr hmem
    rw [hwids] at hm
    exact List.mem_toFinset.mp hm
  obtain ⟨w₁, hg₁⟩ := dictGet?_isSome_of_mem_keys hmem
  obtain ⟨w₂, hg₂⟩ := dictGet?_isSome_of_mem_keys hmem₂
  have hnd₁ : (dictKeys w₁.daily_presences).Nodup :=
    h₁.2.2.1 (wid, w₁) (mem_of_dictGet?_eq_some hg₁)
  have hnd₂ : (dictKeys w₂.daily_presences).Nodup :=
    h₂.2.2.1 (wid, w₂) (mem_of_dictGet?_eq_some hg₂)
  have hd1 : (absOf s₁).days wid = (dictKeys w₁.daily_presences).toFinset := by
    rw [absOf_days, hg₁]
  have hd2 : (absOf s₂).days wid = (dictKeys w₂.daily_presences).toFinset := by
    rw [absOf_days, hg₂]
  have hdayseq : (dictKeys w₁.daily_presences).toFinset =
      (dictKeys w₂.daily_presences).toFinset := by
    rw [← hd1, ← hd2, hab]
  refine ⟨w₁, w₂, hg₁, hg₂, hnd₁, hnd₂,
    List.perm_of_nodup_nodup_toFinset_eq hnd₁ hnd₂ hdayseq, ?_⟩
  intro d
  have hu1 : (absOf s₁).users wid d = dictGetD w₁.daily_presences d ∅ := by
    rw [absOf_users, hg₁]
  have hu2 : (absOf s₂).users wid d = dictGetD w₂.daily_presences d ∅ := by
    rw [absOf_users, hg₂]
  rw [← hu1, ← hu2, hab]

theorem report_eq_of_absOf_eq {s₁ s₂ : WeekSet} (h₁ : ReachInv s₁) (h₂ : ReachInv s₂)
    (hab : absOf s₁ = absOf s₂) : report s₁ = report s₂ := by
  have hwids : (dictKeys s₁.weeks).toFinset = (dictKeys s₂.weeks).toFinset := by
    have hc : (absOf s₁).wids = (absOf s₂).wids := by rw [hab]
    rwa [absOf_wids, absOf_wids] at hc
  have hkeysperm : (dictKeys s₁.weeks).Perm (dictKeys s₂.weeks) :=
    List.perm_of_nodup_nodup_toFinset_eq h₁.1 h₂.1 hwids
  have hsorted : List.insertionSort widLe (dictKeys s₁.weeks) =
      List.insertionSort widLe (dictKeys s₂.weeks) :=
    List.eq_of_perm_of_sorted
      (((List.perm_insertionSort widLe _).trans hkeysperm).trans
        (List.perm_insertionSort widLe _).symm)
      (List.sorted_insertionSort widLe _) (List.sorted_insertionSort widLe _)
  have hsw₁ := sortedWeeks_eq_map h₁
  have hsw₂ := sortedWeeks_eq_map h₂
  rw [hsorted] at hsw₁
  have hLmem : ∀ wid ∈ List.insertionSort widLe (dictKeys s₂.weeks),
      wid ∈ dictKeys s₁.weeks := by
    intro wid hwid
    have hm2 : wid ∈ dictKeys s₂.weeks := (List.perm_insertionSort widLe _).subset hwid
    have hm := List.mem_toFinset.mpr hm2
    rw [← hwids] at hm
    exact List.mem_toFinset.mp hm
  have hweek : ∀ wid ∈ List.insertionSort widLe (dictKeys s₂.weeks),
      Week.str ((dictGet? s₁.weeks wid).getD ⟨0, 0, []⟩) =
          Week.str ((dictGet? s₂.weeks wid).getD ⟨0, 0, []⟩) ∧
        ∀ u, countDays ((dictGet? s₁.weeks wid).getD ⟨0, 0, []⟩) u =
          countDays ((dictGet? s₂.weeks wid).getD ⟨0, 0, []⟩) u := by
    intro wid hwid
    obtain ⟨w₁, w₂, hg₁, hg₂, hnd₁, hnd₂, hperm, hgd⟩ :=
      aligned_lookup h₁ h₂ hab (hLmem wid hwid)
    rw [hg₁, hg₂]
    simp only [Option.getD_some]
    exact ⟨weekStr_congr hperm,
      fun u => countDays_congr u hnd₁ hnd₂ (List.toFinset_eq_of_perm _ _ hperm) hgd⟩
  have hheaders : headersFor s₁ = headersFor s₂ := by
    rw [headersFor, headersFor, hsw₁, hsw₂, List.enum_map, List.enum_map,
      List.map_map, List.map_map]
    congr 1
    apply List.map_congr_left
    intro p hp
    have hp2 : p.2 ∈ List.insertionSort widLe (dictKeys s₂.weeks) := by
      obtain ⟨i, x⟩ := p
      obtain ⟨hlt, hx⟩ := List.mem_enum hp
      rw [hx]
      exact List.getElem_mem _
    simp only [Function.comp_apply, Prod.map_fst, Prod.map_snd, id_eq]
    rw [(hweek p.2 hp2).1]
  have husersF : usersFinset s₁ = usersFinset s₂ := by
    apply Finset.ext
    intro u
    rw [mem_usersFinset_abs h₁, mem_usersFinset_abs h₂, hab]
  have hrow : ∀ u, rowFor s₁ u = rowFor s₂ u := by
    intro u
    rw [rowFor, rowFor, hsw₁, hsw₂, List.map_map, List.map_map]
    congr 1
    apply List.map_congr_left
    intro wid hwid
    simp only [Function.comp_apply]
    rw [(hweek wid hwid).2 u]
  have hrows : rowsFor s₁ = rowsFor s₂ := by
    rw [rowsFor_canonical h₁, rowsFor_canonical h₂, husersF]
    apply List.map_congr_left
    intro u _
    exact hrow u
  rw [report, report, hheaders, hrows]

/-- C7: permuting the input records leaves the whole report — header row
and data rows, in order — unchanged: the output layout depends only on the
set of observed passages, laid out by ascending week identifier and
ascending (name, group) user identity. -/
theorem claimC7 (records₁ records₂ : List Record) (h : records₁.Perm records₂) :
    pipeline records₁ = pipeline records₂ := by
  rw [pipeline, pipeline]
  exact report_eq_of_absOf_eq (reachInv_run records₁) (reachInv_run records₂)
    (absOf_runWeekSet_perm h)

/-- Witness for C7: swapping two records (different users, different days)
leaves the report unchanged. -/
theorem claimC7_witness :
    pipeline [(⟨2023, 5, 1, 8, 0, 0⟩, "A#1"), (⟨2023, 5, 2, 9, 0, 0⟩, "B#2")] =
      pipeline [(⟨2023, 5, 2, 9, 0, 0⟩, "B#2"), (⟨2023, 5, 1, 8, 0, 0⟩, "A#1")] :=
  claimC7 [(⟨2023, 5, 1, 8, 0, 0⟩, "A#1"), (⟨2023, 5, 2, 9, 0, 0⟩, "B#2")]
    [(⟨2023, 5, 2, 9, 0, 0⟩, "B#2"), (⟨2023, 5, 1, 8, 0, 0⟩, "A#1")]
    (List.Perm.swap _ _ _)
